import Mathlib

/-!
# Verification of the coordinate / thumbnail / outline core of react-pdf-highlighter-plus

This file shallowly embeds the algorithmic core of the repository:

* the coordinate mapper (`toScaled` / `toViewport`) converting between
  pixel-space viewport rectangles and normalized page-relative rectangles;
* the thumbnail pipeline of `src/hooks/useThumbnails.ts`: a bounded-concurrency
  render queue, an LRU cache over page numbers, and batched state updates;
* the outline resolver (`processOutlineItems` / `flattenOutline`) of
  `useDocumentOutline`.

Numbers that are `number` (doubles) in the source are modelled as `ℚ`;
JavaScript `Map`s are association lists preserving insertion order, and
JavaScript `Set`s are duplicate-free lists.
-/

set_option linter.unusedVariables false

namespace PdfHighlighter

/-! ## Part 1: the coordinate mapper

Modelled from the spec: the source file `coordinates.ts` is not part of the
provided sources (only its callers and documentation are), so `toScaled` and
`toViewport` are modelled from §4.1 of the specification: `toScaled` divides
each pixel coordinate by the page's native width/height and corrects for the
bottom-left-origin convention by subtracting y-values from the page height;
it fails with `InvalidPageDimensions` iff the page dimensions have zero width
or height.  `toViewport` is the inverse, multiplying the normalized
coordinates by `pageDimensions * currentScale`. -/

/-- Native (unscaled) page dimensions in pixels. -/
structure PageDimensions where
  width : ℚ
  height : ℚ
deriving DecidableEq, Repr

/-- A pixel-space rectangle relative to the rendered page element. -/
structure ViewportRect where
  left : ℚ
  top : ℚ
  width : ℚ
  height : ℚ
  pageNumber : ℕ
deriving DecidableEq, Repr

/-- A normalized page-relative rectangle; all coordinates are fractions of the
unscaled page box, with a bottom-left origin. -/
structure ScaledRect where
  x1 : ℚ
  y1 : ℚ
  x2 : ℚ
  y2 : ℚ
  width : ℚ
  height : ℚ
  pageNumber : ℕ
deriving DecidableEq, Repr

/-- Error raised by the coordinate mapper on degenerate page sizes. -/
inductive CoordError where
  | invalidPageDimensions
deriving DecidableEq, Repr

/-- Modelled from the spec: `toScaled(viewportRect, pageDimensions)` divides
each pixel coordinate by the page's native width/height, flipping the
vertical axis (y-values are subtracted from the page height), and signals
`InvalidPageDimensions` when the page has zero width or height. -/
def toScaled (r : ViewportRect) (dims : PageDimensions) :
    Except CoordError ScaledRect :=
  if dims.width = 0 ∨ dims.height = 0 then
    .error .invalidPageDimensions
  else
    .ok {
      x1 := r.left / dims.width
      y1 := (dims.height - (r.top + r.height)) / dims.height
      x2 := (r.left + r.width) / dims.width
      y2 := (dims.height - r.top) / dims.height
      width := r.width / dims.width
      height := r.height / dims.height
      pageNumber := r.pageNumber }

/-- Modelled from the spec: `toViewport(scaledRect, pageDimensions,
currentScale)` multiplies the normalized coordinates by
`pageDimensions * currentScale`, undoing the vertical flip. -/
def toViewport (sr : ScaledRect) (dims : PageDimensions) (currentScale : ℚ) :
    ViewportRect :=
  { left := sr.x1 * dims.width * currentScale
    top := (dims.height - sr.y2 * dims.height) * currentScale
    width := (sr.x2 - sr.x1) * dims.width * currentScale
    height := (sr.y2 - sr.y1) * dims.height * currentScale
    pageNumber := sr.pageNumber }

end PdfHighlighter

namespace PdfHighlighter

/-- C1: round-trip law for the coordinate mapper.  For page dimensions with
positive width and height and a viewport rectangle fully inside the page
bounds, `toScaled` succeeds and `toViewport` at scale `1` recovers every
field of the rectangle within `1e-6` (in fact exactly, since the arithmetic
is exact over `ℚ`). -/
theorem toScaled_toViewport_roundtrip
    (dims : PageDimensions) (r : ViewportRect)
    (hW : 0 < dims.width) (hH : 0 < dims.height)
    (hl : 0 ≤ r.left) (ht : 0 ≤ r.top)
    (hw : 0 ≤ r.width) (hh : 0 ≤ r.height)
    (hr : r.left + r.width ≤ dims.width)
    (hb : r.top + r.height ≤ dims.height) :
    ∃ sr, toScaled r dims = .ok sr ∧
      |(toViewport sr dims 1).left - r.left| ≤ 1/1000000 ∧
      |(toViewport sr dims 1).top - r.top| ≤ 1/1000000 ∧
      |(toViewport sr dims 1).width - r.width| ≤ 1/1000000 ∧
      |(toViewport sr dims 1).height - r.height| ≤ 1/1000000 ∧
      (toViewport sr dims 1).pageNumber = r.pageNumber := by
  have hW0 : dims.width ≠ 0 := ne_of_gt hW
  have hH0 : dims.height ≠ 0 := ne_of_gt hH
  have hexact :
      toViewport
        { x1 := r.left / dims.width,
          y1 := (dims.height - (r.top + r.height)) / dims.height,
          x2 := (r.left + r.width) / dims.width,
          y2 := (dims.height - r.top) / dims.height,
          width := r.width / dims.width,
          height := r.height / dims.height,
          pageNumber := r.pageNumber } dims 1 = r := by
    obtain ⟨W, H⟩ := dims
    obtain ⟨l, t, w, h, pn⟩ := r
    simp only at hW0 hH0
    simp only [toViewport, ViewportRect.mk.injEq, and_true]
    refine ⟨?_, ?_, ?_, ?_⟩ <;> field_simp
  refine ⟨{ x1 := r.left / dims.width,
            y1 := (dims.height - (r.top + r.height)) / dims.height,
            x2 := (r.left + r.width) / dims.width,
            y2 := (dims.height - r.top) / dims.height,
            width := r.width / dims.width,
            height := r.height / dims.height,
            pageNumber := r.pageNumber }, ?_, ?_, ?_, ?_, ?_, ?_⟩
  · unfold toScaled
    rw [if_neg (by push_neg; exact ⟨hW0, hH0⟩)]
  all_goals rw [hexact]
  all_goals norm_num

/-- Witness for C1 at concrete input: an 800×600 page and the rectangle
(100, 50) – (300, 200). -/
theorem toScaled_toViewport_roundtrip_witness :
    ∃ sr, toScaled ⟨100, 50, 200, 150, 4⟩ ⟨800, 600⟩ = .ok sr ∧
      |(toViewport sr ⟨800, 600⟩ 1).left - 100| ≤ 1/1000000 ∧
      |(toViewport sr ⟨800, 600⟩ 1).top - 50| ≤ 1/1000000 ∧
      |(toViewport sr ⟨800, 600⟩ 1).width - 200| ≤ 1/1000000 ∧
      |(toViewport sr ⟨800, 600⟩ 1).height - 150| ≤ 1/1000000 ∧
      (toViewport sr ⟨800, 600⟩ 1).pageNumber = 4 :=
  toScaled_toViewport_roundtrip ⟨800, 600⟩ ⟨100, 50, 200, 150, 4⟩
    (by norm_num) (by norm_num) (by norm_num) (by norm_num)
    (by norm_num) (by norm_num) (by norm_num) (by norm_num)

end PdfHighlighter

namespace PdfHighlighter

/-! ## Part 2: the thumbnail pipeline (`src/hooks/useThumbnails.ts`)

The hook keeps its state in React refs and one piece of React state:

* `thumbnails` / `thumbnailsRef` — `Map<number, ThumbnailData>`;
* `loadingRef`, `loadedRef` — `Set<number>`;
* `cacheOrderRef` — `number[]`, least-recently-used first;
* `renderQueueRef` — `number[]`, FIFO;
* `activeRendersRef` — count of in-flight `renderThumbnail` calls;
* `pendingUpdatesRef` — `Map<number, ThumbnailData>` of batched updates.

All work is interleaved on a single event loop, so each handler runs
atomically.  The in-flight renders are modelled as the list `rendering`
(whose length is `activeRendersRef`); the asynchronous body of
`renderThumbnail` takes effect when the environment delivers its completion
(`completeRender`).  `startedLog` and `evictLog` are instrumentation: they
record, in order, every invocation of `renderThumbnail` and every page
evicted by the LRU loop, and are written by no other operation. -/

/-- The `ThumbnailData` record of `src/types.ts`. -/
structure ThumbnailData where
  pageNumber : ℕ
  dataUrl : Option String
  isLoading : Bool
  error : Option String := none
deriving DecidableEq, Repr

/-- Insertion-ordered map, as a JavaScript `Map`: `set` overwrites in place
or appends at the end. -/
def mapSet (m : List (ℕ × ThumbnailData)) (k : ℕ) (v : ThumbnailData) :
    List (ℕ × ThumbnailData) :=
  if m.any (fun kv => kv.1 = k) then
    m.map (fun kv => if kv.1 = k then (k, v) else kv)
  else
    m ++ [(k, v)]

/-- `Map.get`: the value stored at `k`, if any. -/
def mapGet (m : List (ℕ × ThumbnailData)) (k : ℕ) : Option ThumbnailData :=
  (m.find? (fun kv => kv.1 = k)).map (fun kv => kv.2)

/-- `Map.delete`. -/
def mapDelete (m : List (ℕ × ThumbnailData)) (k : ℕ) :
    List (ℕ × ThumbnailData) :=
  m.filter (fun kv => kv.1 ≠ k)

/-- `Set.add` (JavaScript sets preserve insertion order). -/
def setAdd (l : List ℕ) (p : ℕ) : List ℕ :=
  if p ∈ l then l else l ++ [p]

/-- `Set.delete`. -/
def setDelete (l : List ℕ) (p : ℕ) : List ℕ :=
  l.filter (fun x => x ≠ p)

/-- The mutable state of `useThumbnails`, plus the two instrumentation
logs. -/
structure ThumbState where
  thumbnails : List (ℕ × ThumbnailData)
  loading : List ℕ
  loaded : List ℕ
  cacheOrder : List ℕ
  queue : List ℕ
  rendering : List ℕ
  pending : List (ℕ × ThumbnailData)
  startedLog : List ℕ
  evictLog : List ℕ
deriving DecidableEq, Repr

/-- The initial state of the hook: every container empty. -/
def initState : ThumbState :=
  ⟨[], [], [], [], [], [], [], [], []⟩

/-- `MAX_CONCURRENT_RENDERS` (line 34 of `useThumbnails.ts`). -/
def MAX_CONCURRENT_RENDERS : ℕ := 3

/-- JavaScript truthiness of `data.dataUrl`: `null` and `""` are falsy. -/
def urlTruthy : Option String → Bool
  | none => false
  | some u => u ≠ ""

/-- The test on line 77 (`data.dataUrl && !data.isLoading`) guarding the
LRU bookkeeping in `flushUpdates`. -/
def cacheReady (d : ThumbnailData) : Bool :=
  urlTruthy d.dataUrl && !d.isLoading

/-- The body of the `while (cacheOrderRef.current.length > cacheSize)`
eviction loop of `flushUpdates` (lines 82–86), structurally recursing on the
access-order list it shifts from. -/
def evictLoopGo (cacheSize : ℕ) : List ℕ → ThumbState → ThumbState
  | [], s => { s with cacheOrder := [] }
  | toEvict :: rest, s =>
    if (toEvict :: rest).length > cacheSize then
      evictLoopGo cacheSize rest
        { s with thumbnails := mapDelete s.thumbnails toEvict,
                 loaded := setDelete s.loaded toEvict,
                 evictLog := s.evictLog ++ [toEvict] }
    else { s with cacheOrder := toEvict :: rest }

/-- The eviction loop: shift the least-recently-used page off the front of
`cacheOrder` until at most `cacheSize` entries remain, deleting each shifted
page's map entry and removing it from `loadedRef`. -/
def evictLoop (cacheSize : ℕ) (s : ThumbState) : ThumbState :=
  evictLoopGo cacheSize s.cacheOrder s

/-- One iteration of the `pendingUpdatesRef.current.forEach` body in
`flushUpdates` (lines 73–87): store the update, and if it is a loaded
thumbnail, touch its LRU position and evict down to the cache size. -/
def applyUpdate (cacheSize : ℕ) (s : ThumbState) (kv : ℕ × ThumbnailData) :
    ThumbState :=
  let s1 := { s with thumbnails := mapSet s.thumbnails kv.1 kv.2 }
  if cacheReady kv.2 then
    evictLoop cacheSize
      { s1 with cacheOrder :=
          s1.cacheOrder.filter (fun p => p ≠ kv.1) ++ [kv.1] }
  else s1

/-- `flushUpdates` (lines 68–92): an early return when nothing is pending,
otherwise every pending update is applied in insertion order and the pending
map is cleared. -/
def flushUpdates (cacheSize : ℕ) (s : ThumbState) : ThumbState :=
  if s.pending = [] then s
  else { s.pending.foldl (applyUpdate cacheSize) s with pending := [] }

/-- `queueUpdate` (lines 95–104), ignoring the timer bookkeeping: record the
update for the next flush. -/
def queueUpdate (p : ℕ) (d : ThumbnailData) (s : ThumbState) : ThumbState :=
  { s with pending := mapSet s.pending p d }

/-- `processQueue` (lines 156–176): while the queue is nonempty and fewer
than `MAX_CONCURRENT_RENDERS` renders are active, shift the next page off
the queue and start its render.  (The `isProcessingRef` guard only prevents
re-entrancy inside one event-loop task and never fires across the atomic
steps modelled here.) -/
def processQueueGo : List ℕ → ThumbState → ThumbState
  | [], s => { s with queue := [] }
  | p :: rest, s =>
    if s.rendering.length < MAX_CONCURRENT_RENDERS then
      processQueueGo rest
        { s with rendering := s.rendering ++ [p],
                 startedLog := s.startedLog ++ [p] }
    else { s with queue := p :: rest }

/-- `processQueue`, entered with the current queue. -/
def processQueue (s : ThumbState) : ThumbState :=
  processQueueGo s.queue s

/-- The completion of one in-flight `renderThumbnail pageNumber` call
(lines 107–153) together with the `.finally` attached to it in
`processQueue` (lines 165–172).  `res = some dataUrl` is the success path
(mark the page loaded and queue the loaded entry), `res = none` the catch
path (queue an error entry); either way the page leaves `loadingRef`, the
active-render count drops, and the queue is processed again if nonempty. -/
def completeRender (p : ℕ) (res : Option String) (emsg : String)
    (s : ThumbState) : ThumbState :=
  let s1 :=
    match res with
    | some url =>
        queueUpdate p ⟨p, some url, false, none⟩
          { s with loaded := setAdd s.loaded p }
    | none => queueUpdate p ⟨p, none, false, some emsg⟩ s
  let s2 := { s1 with loading := setDelete s1.loading p,
                      rendering := s1.rendering.erase p }
  if s2.queue.isEmpty then s2 else processQueue s2

/-- The sentinel entry created on first request (lines 194–198). -/
def loadingEntry (p : ℕ) : ThumbnailData := ⟨p, none, true, none⟩

/-- `loadThumbnail` (lines 179–205): skip pages already loading, loaded or
queued; otherwise mark the page loading, queue the loading entry, enqueue
the page and process the queue. -/
def loadThumbnail (p : ℕ) (s : ThumbState) : ThumbState :=
  if p ∈ s.loading ∨ p ∈ s.loaded then s
  else if p ∈ s.queue then s
  else
    let s1 := { s with loading := setAdd s.loading p }
    let s2 := queueUpdate p (loadingEntry p) s1
    processQueue { s2 with queue := s2.queue ++ [p] }

/-- `getThumbnail` (lines 208–219): the stored entry, or a default
"not yet requested" entry. -/
def getThumbnail (p : ℕ) (s : ThumbState) : ThumbnailData :=
  match mapGet s.thumbnails p with
  | some d => d
  | none => ⟨p, none, false, none⟩

/-- `getThumbnail` as an operation on the hook state: it returns its value
and touches nothing (the callback body only reads `thumbnailsRef`). -/
def getThumbnailOp (p : ℕ) (s : ThumbState) : ThumbnailData × ThumbState :=
  (getThumbnail p s, s)

/-- `clearCache` (lines 230–235): reset the thumbnail map, the LRU order and
both page sets; the render queue, the in-flight renders and the pending
updates are left alone. -/
def clearCache (s : ThumbState) : ThumbState :=
  { s with thumbnails := [], cacheOrder := [], loading := [], loaded := [] }

/-- States of the pipeline reachable from the empty hook state by requests,
render completions (of pages actually in flight) and batched flushes, for a
fixed `cacheSize`. -/
inductive Reachable (cacheSize : ℕ) : ThumbState → Prop where
  | init : Reachable cacheSize initState
  | load (p : ℕ) {s : ThumbState} :
      Reachable cacheSize s → Reachable cacheSize (loadThumbnail p s)
  | complete (p : ℕ) (res : Option String) (emsg : String) {s : ThumbState} :
      Reachable cacheSize s → p ∈ s.rendering →
      Reachable cacheSize (completeRender p res emsg s)
  | flush {s : ThumbState} :
      Reachable cacheSize s → Reachable cacheSize (flushUpdates cacheSize s)

end PdfHighlighter

namespace PdfHighlighter

/-! ## Part 3: the outline resolver (`useDocumentOutline`)

`processOutlineItems` walks the raw outline depth first.  For each raw item
it resolves `item.dest` to a page number through the document's asynchronous
lookup (`getDestination` for named destinations, then `getPageIndex`); any
failure along the way — an exception, a `null`/non-array destination, a falsy
first element — leaves the default `pageNumber = 1`.  The whole lookup
pipeline is abstracted as an oracle `resolve : δ → Option ℕ` returning the
zero-based page index on success and `none` on any failure.  Ids are the
template string `outline-${level}-${i}`. -/

/-- A raw outline entry as delivered by `pdfDocument.getOutline()`; `δ` is
the type of destination records. -/
inductive OutlineItem (δ : Type) where
  | mk (title : String) (dest : Option δ) (bold : Bool) (italic : Bool)
      (items : List (OutlineItem δ))

/-- `item.title`. -/
def OutlineItem.title : OutlineItem δ → String
  | .mk t _ _ _ _ => t

/-- `item.dest`. -/
def OutlineItem.dest : OutlineItem δ → Option δ
  | .mk _ d _ _ _ => d

/-- `item.items` (the raw children). -/
def OutlineItem.items : OutlineItem δ → List (OutlineItem δ)
  | .mk _ _ _ _ l => l

/-- A `ProcessedOutlineItem` of `src/types.ts`. -/
inductive ProcessedOutlineItem (δ : Type) where
  | mk (id : String) (title : String) (pageNumber : ℕ) (dest : Option δ)
      (level : ℕ) (bold : Bool) (italic : Bool)
      (children : List (ProcessedOutlineItem δ))

/-- `item.id`. -/
def ProcessedOutlineItem.id : ProcessedOutlineItem δ → String
  | .mk i _ _ _ _ _ _ _ => i

/-- `item.title`. -/
def ProcessedOutlineItem.title : ProcessedOutlineItem δ → String
  | .mk _ t _ _ _ _ _ _ => t

/-- `item.pageNumber`. -/
def ProcessedOutlineItem.pageNumber : ProcessedOutlineItem δ → ℕ
  | .mk _ _ p _ _ _ _ _ => p

/-- `item.level`. -/
def ProcessedOutlineItem.level : ProcessedOutlineItem δ → ℕ
  | .mk _ _ _ _ l _ _ _ => l

/-- `item.children`. -/
def ProcessedOutlineItem.children :
    ProcessedOutlineItem δ → List (ProcessedOutlineItem δ)
  | .mk _ _ _ _ _ _ _ c => c

/-- Lines 31–49 of `useDocumentOutline.ts`: resolve `item.dest` to a
1-indexed page number, defaulting to page 1 when there is no destination or
when the lookup fails. -/
def destPage (resolve : δ → Option ℕ) : Option δ → ℕ
  | none => 1
  | some d =>
    match resolve d with
    | some pageIndex => pageIndex + 1
    | none => 1

/-- The id template `outline-${level}-${i}` (line 56). -/
def outlineId (level i : ℕ) : String :=
  "outline-" ++ toString level ++ "-" ++ toString i

/-- The `for (let i = 0; ...)` loop of `processOutlineItems` (lines 29–65),
with the running sibling index made explicit. -/
def processOutlineItemsAux (resolve : δ → Option ℕ) (level : ℕ) :
    ℕ → List (OutlineItem δ) → List (ProcessedOutlineItem δ)
  | _, [] => []
  | i, OutlineItem.mk title dest bold italic items :: rest =>
    ProcessedOutlineItem.mk (outlineId level i) title
        (destPage resolve dest) dest level bold italic
        (if items.length ≠ 0 then processOutlineItemsAux resolve (level + 1) 0 items
         else []) ::
      processOutlineItemsAux resolve level (i + 1) rest

/-- `processOutlineItems(pdfDocument, items, level)` (lines 22–68). -/
def processOutlineItems (resolve : δ → Option ℕ)
    (items : List (OutlineItem δ)) (level : ℕ) :
    List (ProcessedOutlineItem δ) :=
  processOutlineItemsAux resolve level 0 items

/-- `flattenOutline` (lines 73–82): emit each item, then its flattened
children (skipping the recursive call when `item.children.length` is falsy),
then the rest. -/
def flattenOutline : List (ProcessedOutlineItem δ) →
    List (ProcessedOutlineItem δ)
  | [] => []
  | item :: rest =>
    (item :: (if item.children.length ≠ 0 then flattenOutline item.children
              else [])) ++ flattenOutline rest
termination_by l => sizeOf l
decreasing_by
  all_goals cases item
  all_goals simp [ProcessedOutlineItem.children]
  all_goals omega

/-- Total number of nodes of a processed outline forest. -/
def countNodes : List (ProcessedOutlineItem δ) → ℕ
  | [] => 0
  | item :: rest => 1 + countNodes item.children + countNodes rest
termination_by l => sizeOf l
decreasing_by
  all_goals cases item
  all_goals simp [ProcessedOutlineItem.children]
  all_goals omega

/-- Modelled from the spec (§4.4 "Flattening"): a pre-order traversal
emitting each node followed immediately by its fully flattened children, in
sibling order. -/
def preorderFlatten : List (ProcessedOutlineItem δ) →
    List (ProcessedOutlineItem δ)
  | [] => []
  | item :: rest =>
    item :: (preorderFlatten item.children ++ preorderFlatten rest)
termination_by l => sizeOf l
decreasing_by
  all_goals cases item
  all_goals simp [ProcessedOutlineItem.children]
  all_goals omega

end PdfHighlighter

namespace PdfHighlighter

/-! ### Basic lemmas about the map / set primitives -/

theorem find?_key_replace (l : List (ℕ × ThumbnailData)) (k k' : ℕ)
    (v : ThumbnailData) (h : k' ≠ k) :
    (l.map (fun kv => if kv.1 = k then (k, v) else kv)).find?
        (fun kv => kv.1 = k') =
      l.find? (fun kv => kv.1 = k') := by
  induction l with
  | nil => simp
  | cons a t ih =>
    by_cases ha : a.1 = k
    · rw [List.map_cons, if_pos ha,
        List.find?_cons_of_neg _ (by simp [Ne.symm h]),
        List.find?_cons_of_neg _ (by simp [ha]; exact fun hk => h (hk ▸ rfl))]
      exact ih
    · rw [List.map_cons, if_neg ha]
      by_cases ha' : a.1 = k'
      · rw [List.find?_cons_of_pos _ (by simp [ha']),
          List.find?_cons_of_pos _ (by simp [ha'])]
      · rw [List.find?_cons_of_neg _ (by simp [ha']),
          List.find?_cons_of_neg _ (by simp [ha'])]
        exact ih

theorem find?_key_replace_self (l : List (ℕ × ThumbnailData)) (k : ℕ)
    (v : ThumbnailData) (h : (l.any fun kv => kv.1 = k) = true) :
    (l.map (fun kv => if kv.1 = k then (k, v) else kv)).find?
        (fun kv => kv.1 = k) = some (k, v) := by
  induction l with
  | nil => simp at h
  | cons a t ih =>
    by_cases ha : a.1 = k
    · rw [List.map_cons, if_pos ha, List.find?_cons_of_pos _ (by simp)]
    · rw [List.map_cons, if_neg ha, List.find?_cons_of_neg _ (by simp [ha])]
      exact ih (by simpa [ha] using h)

theorem mapGet_set_self (m : List (ℕ × ThumbnailData)) (k : ℕ)
    (v : ThumbnailData) : mapGet (mapSet m k v) k = some v := by
  unfold mapGet mapSet
  split <;> rename_i h
  · rw [find?_key_replace_self m k v h]
    rfl
  · rw [List.find?_append]
    have hnone : m.find? (fun kv => kv.1 = k) = none := by
      rw [List.find?_eq_none]
      intro x hx
      simp only [List.any_eq_true, decide_eq_true_eq] at h
      push_neg at h
      simp only [decide_eq_true_eq]
      exact h x hx
    rw [hnone, List.find?_cons_of_pos _ (by simp)]
    rfl

theorem mapGet_set_ne (m : List (ℕ × ThumbnailData)) (k k' : ℕ)
    (v : ThumbnailData) (h : k' ≠ k) :
    mapGet (mapSet m k v) k' = mapGet m k' := by
  unfold mapGet mapSet
  split
  · rw [find?_key_replace m k k' v h]
  · rw [List.find?_append,
      List.find?_cons_of_neg _ (by simp [Ne.symm h]), List.find?_nil,
      Option.or_none]

theorem map_fst_replace (l : List (ℕ × ThumbnailData)) (k : ℕ)
    (v : ThumbnailData) :
    (l.map (fun kv => if kv.1 = k then (k, v) else kv)).map Prod.fst =
      l.map Prod.fst := by
  induction l with
  | nil => simp
  | cons a t ih =>
    by_cases ha : a.1 = k
    · simp [ha, ih]
    · simp [ha, ih]

theorem mapSet_keys (m : List (ℕ × ThumbnailData)) (k : ℕ) (v : ThumbnailData) :
    (mapSet m k v).map Prod.fst = m.map Prod.fst ∨
      (mapSet m k v).map Prod.fst = m.map Prod.fst ++ [k] := by
  unfold mapSet
  split
  · exact Or.inl (map_fst_replace m k v)
  · right; simp

theorem mem_setAdd (l : List ℕ) (p x : ℕ) :
    x ∈ setAdd l p ↔ x ∈ l ∨ x = p := by
  unfold setAdd
  split <;> rename_i h
  · constructor
    · exact fun hx => Or.inl hx
    · rintro (hx | rfl) <;> [exact hx; exact h]
  · simp

theorem mem_setDelete (l : List ℕ) (p x : ℕ) :
    x ∈ setDelete l p ↔ x ∈ l ∧ x ≠ p := by
  unfold setDelete
  simp

end PdfHighlighter

namespace PdfHighlighter

/-! ### Characterizing the scheduler loop -/

/-- The number of pages `processQueueGo` will start: free slots, capped by
the queue length. -/
def freeSlots (q : List ℕ) (rendering : List ℕ) : ℕ :=
  min (MAX_CONCURRENT_RENDERS - rendering.length) q.length

theorem processQueueGo_spec (q : List ℕ) (s : ThumbState) :
    processQueueGo q s =
      { s with queue := q.drop (freeSlots q s.rendering),
               rendering := s.rendering ++ q.take (freeSlots q s.rendering),
               startedLog := s.startedLog ++ q.take (freeSlots q s.rendering) } := by
  induction q generalizing s with
  | nil => simp [processQueueGo, freeSlots]
  | cons p rest ih =>
    rw [processQueueGo]
    by_cases hc : s.rendering.length < MAX_CONCURRENT_RENDERS
    · rw [if_pos hc, ih]
      have hslots : freeSlots (p :: rest) s.rendering =
          freeSlots rest (s.rendering ++ [p]) + 1 := by
        simp only [freeSlots, MAX_CONCURRENT_RENDERS, List.length_append,
          List.length_cons, List.length_nil] at hc ⊢
        omega
      rw [hslots]
      simp [List.take_succ_cons, List.drop_succ_cons]
    · rw [if_neg hc]
      have hslots : freeSlots (p :: rest) s.rendering = 0 := by
        simp only [freeSlots, MAX_CONCURRENT_RENDERS] at hc ⊢
        omega
      rw [hslots]
      simp

theorem processQueue_spec (s : ThumbState) :
    processQueue s =
      { s with queue := s.queue.drop (freeSlots s.queue s.rendering),
               rendering := s.rendering ++ s.queue.take (freeSlots s.queue s.rendering),
               startedLog := s.startedLog ++ s.queue.take (freeSlots s.queue s.rendering) } :=
  processQueueGo_spec s.queue s

theorem processQueue_rendering_le (s : ThumbState)
    (h : s.rendering.length ≤ MAX_CONCURRENT_RENDERS) :
    (processQueue s).rendering.length ≤ MAX_CONCURRENT_RENDERS := by
  rw [processQueue_spec]
  simp only [List.length_append, List.length_take, freeSlots]
  omega

theorem processQueue_full (s : ThumbState)
    (h : s.rendering.length ≤ MAX_CONCURRENT_RENDERS)
    (hne : (processQueue s).queue ≠ []) :
    (processQueue s).rendering.length = MAX_CONCURRENT_RENDERS := by
  rw [processQueue_spec] at hne ⊢
  simp only [ne_eq, List.drop_eq_nil_iff, not_le, freeSlots,
    MAX_CONCURRENT_RENDERS] at hne
  simp only [List.length_append, List.length_take, freeSlots,
    MAX_CONCURRENT_RENDERS] at h ⊢
  omega

theorem processQueue_mu (s : ThumbState) :
    (processQueue s).queue.length + (processQueue s).rendering.length =
      s.queue.length + s.rendering.length := by
  rw [processQueue_spec]
  simp only [List.length_drop, List.length_append, List.length_take, freeSlots]
  omega

theorem processQueue_count (s : ThumbState) (x : ℕ) :
    (processQueue s).queue.count x + (processQueue s).rendering.count x =
      s.queue.count x + s.rendering.count x := by
  rw [processQueue_spec]
  simp only [List.count_append]
  have h := congrArg (List.count x)
    (List.take_append_drop (freeSlots s.queue s.rendering) s.queue)
  rw [List.count_append] at h
  omega

theorem processQueue_mem (s : ThumbState) (x : ℕ) :
    (x ∈ (processQueue s).queue ∨ x ∈ (processQueue s).rendering) ↔
      (x ∈ s.queue ∨ x ∈ s.rendering) := by
  rw [processQueue_spec]
  simp only [List.mem_append]
  constructor
  · rintro (hd | hr | ht)
    · exact Or.inl (List.mem_of_mem_drop hd)
    · exact Or.inr hr
    · exact Or.inl (List.mem_of_mem_take ht)
  · rintro (hq | hr)
    · rw [← List.take_append_drop (freeSlots s.queue s.rendering) s.queue]
        at hq
      rcases List.mem_append.mp hq with ht | hd
      · exact Or.inr (Or.inr ht)
      · exact Or.inl hd
    · exact Or.inr (Or.inl hr)

end PdfHighlighter

namespace PdfHighlighter

/-! ### Characterizing the eviction loop -/

theorem evictLoopGo_spec (N : ℕ) (co : List ℕ) (s : ThumbState) :
    evictLoopGo N co s =
      { s with cacheOrder := co.drop (co.length - N),
               thumbnails := (co.take (co.length - N)).foldl mapDelete s.thumbnails,
               loaded := (co.take (co.length - N)).foldl setDelete s.loaded,
               evictLog := s.evictLog ++ co.take (co.length - N) } := by
  induction co generalizing s with
  | nil => simp [evictLoopGo]
  | cons e rest ih =>
    rw [evictLoopGo]
    by_cases h : (e :: rest).length > N
    · rw [if_pos h, ih]
      have hm : (e :: rest).length - N = (rest.length - N) + 1 := by
        simp only [List.length_cons] at h ⊢
        omega
      rw [hm]
      simp [List.take_succ_cons, List.drop_succ_cons]
    · rw [if_neg h]
      have hm : (e :: rest).length - N = 0 := by
        simp only [List.length_cons] at h ⊢
        omega
      rw [hm]
      simp

theorem mem_foldl_setDelete (ev : List ℕ) (l : List ℕ) (x : ℕ) :
    x ∈ ev.foldl setDelete l ↔ x ∈ l ∧ x ∉ ev := by
  induction ev generalizing l with
  | nil => simp
  | cons a t ih =>
    rw [List.foldl_cons, ih, mem_setDelete]
    simp only [List.mem_cons]
    tauto

theorem mapGet_delete_self (m : List (ℕ × ThumbnailData)) (k : ℕ) :
    mapGet (mapDelete m k) k = none := by
  unfold mapGet mapDelete
  have hfind : (m.filter (fun kv => kv.1 ≠ k)).find?
      (fun kv => kv.1 = k) = none := by
    rw [List.find?_eq_none]
    intro x hx
    simp only [List.mem_filter, ne_eq, decide_eq_true_eq] at hx ⊢
    exact hx.2
  rw [hfind]
  rfl

theorem mapGet_delete_ne (m : List (ℕ × ThumbnailData)) (k k' : ℕ)
    (h : k' ≠ k) : mapGet (mapDelete m k) k' = mapGet m k' := by
  unfold mapGet mapDelete
  induction m with
  | nil => simp
  | cons a t ih =>
    by_cases ha : a.1 = k
    · rw [List.filter_cons_of_neg (by simp [ha]),
        List.find?_cons_of_neg _ (by simp [ha, Ne.symm h])]
      exact ih
    · rw [List.filter_cons_of_pos (by simp [ha])]
      by_cases ha' : a.1 = k'
      · rw [List.find?_cons_of_pos _ (by simp [ha']),
          List.find?_cons_of_pos _ (by simp [ha'])]
      · rw [List.find?_cons_of_neg _ (by simp [ha']),
          List.find?_cons_of_neg _ (by simp [ha'])]
        exact ih

theorem foldl_mapDelete_map_prefix (f : ℕ → ThumbnailData) :
    ∀ (L : List ℕ) (m : ℕ), L.Nodup →
    ((L.take m).foldl mapDelete (L.map (fun q => (q, f q)))) =
      (L.drop m).map (fun q => (q, f q))
  | L, 0, _ => by simp
  | [], m + 1, _ => by simp
  | a :: t, m + 1, hnd => by
    rw [List.take_succ_cons, List.drop_succ_cons, List.foldl_cons]
    have ha : mapDelete ((a :: t).map (fun q => (q, f q))) a =
        t.map (fun q => (q, f q)) := by
      unfold mapDelete
      rw [List.map_cons, List.filter_cons_of_neg (by simp)]
      apply List.filter_eq_self.mpr
      intro x hx
      obtain ⟨q, hq, rfl⟩ := List.mem_map.mp hx
      have hne : q ≠ a := fun hqa => (List.nodup_cons.mp hnd).1 (hqa ▸ hq)
      simp [hne]
    rw [ha]
    exact foldl_mapDelete_map_prefix f t m (List.nodup_cons.mp hnd).2

end PdfHighlighter

namespace PdfHighlighter

/-! ### One step of the flush fold -/

theorem evictLoop_spec (N : ℕ) (s : ThumbState) :
    evictLoop N s =
      { s with
        cacheOrder := s.cacheOrder.drop (s.cacheOrder.length - N),
        thumbnails :=
          (s.cacheOrder.take (s.cacheOrder.length - N)).foldl mapDelete
            s.thumbnails,
        loaded :=
          (s.cacheOrder.take (s.cacheOrder.length - N)).foldl setDelete
            s.loaded,
        evictLog :=
          s.evictLog ++ s.cacheOrder.take (s.cacheOrder.length - N) } :=
  evictLoopGo_spec N s.cacheOrder s

theorem applyUpdate_step (N : ℕ) (s : ThumbState) (kv : ℕ × ThumbnailData)
    (h1 : ∀ p, (p ∈ s.queue ∨ p ∈ s.rendering) → p ∉ s.cacheOrder)
    (h3 : s.cacheOrder.Nodup)
    (h4 : ∀ p, p ∈ s.cacheOrder → p ∈ s.loaded)
    (hkv : cacheReady kv.2 = true →
      kv.1 ∈ s.loaded ∧ kv.1 ∉ s.cacheOrder ∧ kv.1 ∉ s.queue ∧
        kv.1 ∉ s.rendering) :
    (applyUpdate N s kv).queue = s.queue ∧
    (applyUpdate N s kv).rendering = s.rendering ∧
    (applyUpdate N s kv).loading = s.loading ∧
    (applyUpdate N s kv).pending = s.pending ∧
    (applyUpdate N s kv).startedLog = s.startedLog ∧
    (∀ p, (p ∈ s.queue ∨ p ∈ s.rendering) →
      p ∉ (applyUpdate N s kv).cacheOrder) ∧
    (applyUpdate N s kv).cacheOrder.Nodup ∧
    (∀ p, p ∈ (applyUpdate N s kv).cacheOrder →
      p ∈ (applyUpdate N s kv).loaded) ∧
    (∃ E, (applyUpdate N s kv).evictLog = s.evictLog ++ E ∧
      ∀ x ∈ E, x ∉ s.rendering) ∧
    (∀ x, x ∈ (applyUpdate N s kv).loaded → x ∈ s.loaded) ∧
    (∀ x, x ∈ (applyUpdate N s kv).cacheOrder →
      x ∈ s.cacheOrder ∨ x = kv.1) ∧
    (∀ x, x ∈ s.loaded → x ∉ s.cacheOrder → x ≠ kv.1 →
      x ∈ (applyUpdate N s kv).loaded ∧
        x ∉ (applyUpdate N s kv).cacheOrder) := by
  unfold applyUpdate
  by_cases hcr : cacheReady kv.2
  · rw [if_pos hcr, evictLoop_spec]
    dsimp only
    obtain ⟨hld, hco, hqu, hrn⟩ := hkv hcr
    set l0 : List ℕ := s.cacheOrder.filter (fun p => p ≠ kv.1) ++ [kv.1]
      with hl0
    set m : ℕ := l0.length - N with hm
    have hfilter : ∀ x, x ∈ s.cacheOrder.filter (fun p => p ≠ kv.1) →
        x ∈ s.cacheOrder ∧ x ≠ kv.1 := by
      intro x hx
      have := List.mem_filter.mp hx
      exact ⟨this.1, by simpa using this.2⟩
    have hl0mem : ∀ x, x ∈ l0 → x ∈ s.cacheOrder ∨ x = kv.1 := by
      intro x hx
      rcases List.mem_append.mp hx with hx | hx
      · exact Or.inl (hfilter x hx).1
      · exact Or.inr (by simpa using hx)
    have hl0nd : l0.Nodup := by
      apply List.Nodup.append
      · exact List.Nodup.filter _ h3
      · simp
      · intro x hx hx'
        have := (hfilter x hx).2
        simp only [List.mem_singleton] at hx'
        exact this hx'
    have htd : ∀ x, x ∈ l0.drop m → x ∉ l0.take m := by
      intro x hxd hxt
      exact (List.disjoint_take_drop hl0nd le_rfl) hxt hxd
    refine ⟨rfl, rfl, rfl, rfl, rfl, ?_, ?_, ?_, ?_, ?_, ?_, ?_⟩
    · intro p hp hmem
      have hpl0 := hl0mem p (List.mem_of_mem_drop hmem)
      rcases hpl0 with hpc | rfl
      · exact h1 p hp hpc
      · rcases hp with hp | hp
        · exact hqu hp
        · exact hrn hp
    · exact (hl0nd.sublist (List.drop_sublist m l0))
    · intro p hp
      rw [mem_foldl_setDelete]
      refine ⟨?_, ?_⟩
      · rcases hl0mem p (List.mem_of_mem_drop hp) with hpc | rfl
        · exact h4 p hpc
        · exact hld
      · exact htd p hp
    · refine ⟨l0.take m, rfl, ?_⟩
      intro x hx hxr
      rcases hl0mem x (List.mem_of_mem_take hx) with hxc | rfl
      · exact h1 x (Or.inr hxr) hxc
      · exact hrn hxr
    · intro x hx
      exact (mem_foldl_setDelete _ _ _ |>.mp hx).1
    · intro x hx
      exact hl0mem x (List.mem_of_mem_drop hx)
    · intro x hxl hxc hxk
      have hxl0 : x ∉ l0 := by
        intro hx
        rcases hl0mem x hx with h | h
        · exact hxc h
        · exact hxk h
      constructor
      · rw [mem_foldl_setDelete]
        exact ⟨hxl, fun hx => hxl0 (List.mem_of_mem_take hx)⟩
      · intro hx
        exact hxl0 (List.mem_of_mem_drop hx)
  · rw [if_neg hcr]
    refine ⟨rfl, rfl, rfl, rfl, rfl, ?_, h3, h4, ⟨[], by simp, by simp⟩,
      fun x h => h, fun x h => Or.inl h, fun x hxl hxc _ => ⟨hxl, hxc⟩⟩
    exact h1

end PdfHighlighter

namespace PdfHighlighter

/-! ### The flush fold -/

theorem applyUpdate_fold (N : ℕ) :
    ∀ (todo : List (ℕ × ThumbnailData)) (s : ThumbState),
    (∀ p, (p ∈ s.queue ∨ p ∈ s.rendering) → p ∉ s.cacheOrder) →
    s.cacheOrder.Nodup →
    (∀ p, p ∈ s.cacheOrder → p ∈ s.loaded) →
    (∀ kv ∈ todo, cacheReady kv.2 = true →
      kv.1 ∈ s.loaded ∧ kv.1 ∉ s.cacheOrder ∧ kv.1 ∉ s.queue ∧
        kv.1 ∉ s.rendering) →
    (todo.map Prod.fst).Nodup →
    (todo.foldl (applyUpdate N) s).queue = s.queue ∧
    (todo.foldl (applyUpdate N) s).rendering = s.rendering ∧
    (todo.foldl (applyUpdate N) s).loading = s.loading ∧
    (todo.foldl (applyUpdate N) s).pending = s.pending ∧
    (todo.foldl (applyUpdate N) s).startedLog = s.startedLog ∧
    (∀ p, (p ∈ s.queue ∨ p ∈ s.rendering) →
      p ∉ (todo.foldl (applyUpdate N) s).cacheOrder) ∧
    (todo.foldl (applyUpdate N) s).cacheOrder.Nodup ∧
    (∀ p, p ∈ (todo.foldl (applyUpdate N) s).cacheOrder →
      p ∈ (todo.foldl (applyUpdate N) s).loaded) ∧
    (∃ E, (todo.foldl (applyUpdate N) s).evictLog = s.evictLog ++ E ∧
      ∀ x ∈ E, x ∉ s.rendering) ∧
    (∀ x, x ∈ (todo.foldl (applyUpdate N) s).loaded → x ∈ s.loaded)
  | [], s => by
    intro h1 h3 h4 _ _
    exact ⟨rfl, rfl, rfl, rfl, rfl, h1, h3, h4, ⟨[], by simp, by simp⟩,
      fun x h => h⟩
  | kv :: rest, s => by
    intro h1 h3 h4 htodo hnd
    obtain ⟨f1, f2, f3, f4, f5, g1, g3, g4, ⟨E1, hE1, hE1r⟩, gld, gco, gpres⟩ :=
      applyUpdate_step N s kv h1 h3 h4 (htodo kv (List.mem_cons_self kv rest))
    set s' := applyUpdate N s kv with hs'
    have hrest : ∀ kv' ∈ rest, cacheReady kv'.2 = true →
        kv'.1 ∈ s'.loaded ∧ kv'.1 ∉ s'.cacheOrder ∧ kv'.1 ∉ s'.queue ∧
          kv'.1 ∉ s'.rendering := by
      intro kv' hkv' hcr'
      obtain ⟨hld', hco', hqu', hrn'⟩ :=
        htodo kv' (List.mem_cons_of_mem kv hkv') hcr'
      have hk : kv'.1 ≠ kv.1 := by
        intro heq
        have : kv.1 ∈ rest.map Prod.fst := heq ▸ List.mem_map_of_mem Prod.fst hkv'
        exact (List.nodup_cons.mp hnd).1 this
      obtain ⟨hl, hc⟩ := gpres kv'.1 hld' hco' hk
      exact ⟨hl, hc, f1 ▸ hqu', f2 ▸ hrn'⟩
    have ih := applyUpdate_fold N rest s'
      (by rw [f1, f2]; exact g1) g3 g4 hrest (List.nodup_cons.mp hnd).2
    obtain ⟨i1, i2, i3, i4, i5, j1, j3, j4, ⟨E2, hE2, hE2r⟩, jld⟩ := ih
    rw [List.foldl_cons, ← hs']
    refine ⟨i1.trans f1, i2.trans f2, i3.trans f3, i4.trans f4, i5.trans f5,
      ?_, j3, j4, ?_, ?_⟩
    · intro p hp
      exact j1 p (by rw [f1, f2]; exact hp)
    · refine ⟨E1 ++ E2, by rw [hE2, hE1, List.append_assoc], ?_⟩
      intro x hx
      rcases List.mem_append.mp hx with hx | hx
      · exact hE1r x hx
      · exact f2 ▸ hE2r x hx
    · intro x hx
      exact gld x (jld x hx)

end PdfHighlighter

namespace PdfHighlighter

/-! ### The pipeline invariant -/

theorem mapGet_nil (k : ℕ) : mapGet [] k = none := rfl

theorem mapSet_keys_nodup (m : List (ℕ × ThumbnailData)) (k : ℕ)
    (v : ThumbnailData) (h : (m.map Prod.fst).Nodup) :
    ((mapSet m k v).map Prod.fst).Nodup := by
  unfold mapSet
  split <;> rename_i hany
  · rw [map_fst_replace]
    exact h
  · rw [List.map_append]
    apply List.Nodup.append h (by simp)
    intro x hx hx'
    simp only [List.map_cons, List.map_nil, List.mem_singleton] at hx'
    subst hx'
    obtain ⟨kv, hkv, hk⟩ := List.mem_map.mp hx
    simp only [List.any_eq_true, decide_eq_true_eq] at hany
    push_neg at hany
    exact hany kv hkv hk

theorem mapGet_of_mem_of_nodup (m : List (ℕ × ThumbnailData))
    (kv : ℕ × ThumbnailData) (h : kv ∈ m) (hnd : (m.map Prod.fst).Nodup) :
    mapGet m kv.1 = some kv.2 := by
  induction m with
  | nil => simp at h
  | cons a t ih =>
    rcases List.mem_cons.mp h with rfl | hmem
    · unfold mapGet
      rw [List.find?_cons_of_pos _ (by simp)]
      rfl
    · have hne : a.1 ≠ kv.1 := by
        intro heq
        have : kv.1 ∈ t.map Prod.fst := List.mem_map_of_mem Prod.fst hmem
        rw [← heq] at this
        exact (List.nodup_cons.mp (by simpa using hnd)).1 this
      unfold mapGet
      rw [List.find?_cons_of_neg _ (by simp [hne])]
      exact ih hmem (List.nodup_cons.mp (by simpa using hnd)).2

theorem processQueue_of_queue_nil (s : ThumbState) (h : s.queue = []) :
    processQueue s = s := by
  unfold processQueue
  rw [h]
  show { s with queue := [] } = s
  rw [← h]

/-- The operational invariant of the thumbnail pipeline, maintained by every
request, render completion and flush. -/
structure Inv (s : ThumbState) : Prop where
  cap : s.rendering.length ≤ MAX_CONCURRENT_RENDERS
  full : s.queue ≠ [] → s.rendering.length = MAX_CONCURRENT_RENDERS
  reqLoading : ∀ p, p ∈ s.queue ∨ p ∈ s.rendering → p ∈ s.loading
  once : ∀ p, s.queue.count p + s.rendering.count p ≤ 1
  reqNotCached : ∀ p, p ∈ s.queue ∨ p ∈ s.rendering → p ∉ s.cacheOrder
  cachedLoaded : ∀ p, p ∈ s.cacheOrder → p ∈ s.loaded
  pendNotReady : ∀ p d, (p ∈ s.queue ∨ p ∈ s.rendering) →
    mapGet s.pending p = some d → cacheReady d = false
  pendReadyLoaded : ∀ p d, mapGet s.pending p = some d →
    cacheReady d = true → p ∈ s.loaded
  pendReadyNotCached : ∀ p d, mapGet s.pending p = some d →
    cacheReady d = true → p ∉ s.cacheOrder
  cacheNodup : s.cacheOrder.Nodup
  pendKeysNodup : (s.pending.map Prod.fst).Nodup

theorem inv_initState : Inv initState := by
  constructor <;> simp [initState, MAX_CONCURRENT_RENDERS, mapGet]

end PdfHighlighter

namespace PdfHighlighter

/-- `processQueue` establishes the full invariant from the pre-queue
invariant (everything except `full`, which it re-establishes itself). -/
theorem processQueue_inv (s : ThumbState)
    (cap : s.rendering.length ≤ MAX_CONCURRENT_RENDERS)
    (reqLoading : ∀ p, p ∈ s.queue ∨ p ∈ s.rendering → p ∈ s.loading)
    (once : ∀ p, s.queue.count p + s.rendering.count p ≤ 1)
    (reqNotCached : ∀ p, p ∈ s.queue ∨ p ∈ s.rendering → p ∉ s.cacheOrder)
    (cachedLoaded : ∀ p, p ∈ s.cacheOrder → p ∈ s.loaded)
    (pendNotReady : ∀ p d, (p ∈ s.queue ∨ p ∈ s.rendering) →
      mapGet s.pending p = some d → cacheReady d = false)
    (pendReadyLoaded : ∀ p d, mapGet s.pending p = some d →
      cacheReady d = true → p ∈ s.loaded)
    (pendReadyNotCached : ∀ p d, mapGet s.pending p = some d →
      cacheReady d = true → p ∉ s.cacheOrder)
    (cacheNodup : s.cacheOrder.Nodup)
    (pendKeysNodup : (s.pending.map Prod.fst).Nodup) :
    Inv (processQueue s) := by
  have hframe : (processQueue s).loading = s.loading ∧
      (processQueue s).cacheOrder = s.cacheOrder ∧
      (processQueue s).loaded = s.loaded ∧
      (processQueue s).pending = s.pending := by
    rw [processQueue_spec]
    exact ⟨rfl, rfl, rfl, rfl⟩
  obtain ⟨hld, hco, hlo, hpd⟩ := hframe
  refine ⟨processQueue_rendering_le s cap, processQueue_full s cap, ?_, ?_,
    ?_, ?_, ?_, ?_, ?_, ?_, ?_⟩
  · intro p hp
    rw [hld]
    exact reqLoading p ((processQueue_mem s p).mp hp)
  · intro p
    rw [processQueue_count]
    exact once p
  · intro p hp
    rw [hco]
    exact reqNotCached p ((processQueue_mem s p).mp hp)
  · intro p hp
    rw [hlo]
    exact cachedLoaded p (hco ▸ hp)
  · intro p d hp hget
    exact pendNotReady p d ((processQueue_mem s p).mp hp) (hpd ▸ hget)
  · intro p d hget hr
    rw [hlo]
    exact pendReadyLoaded p d (hpd ▸ hget) hr
  · intro p d hget hr
    rw [hco]
    exact pendReadyNotCached p d (hpd ▸ hget) hr
  · rw [hco]
    exact cacheNodup
  · rw [hpd]
    exact pendKeysNodup

theorem loadThumbnail_inv (p : ℕ) (s : ThumbState) (hinv : Inv s) :
    Inv (loadThumbnail p s) := by
  unfold loadThumbnail
  by_cases h1 : p ∈ s.loading ∨ p ∈ s.loaded
  · rw [if_pos h1]
    exact hinv
  · rw [if_neg h1]
    by_cases h2 : p ∈ s.queue
    · rw [if_pos h2]
      exact hinv
    · rw [if_neg h2]
      push_neg at h1
      obtain ⟨hnl, hnld⟩ := h1
      have hnr : p ∉ s.rendering := fun hr => hnl (hinv.reqLoading p (Or.inr hr))
      apply processQueue_inv <;> dsimp only [queueUpdate]
      · exact hinv.cap
      · intro q hq
        rw [mem_setAdd]
        rcases hq with hq | hq
        · rcases List.mem_append.mp hq with hq | hq
          · exact Or.inl (hinv.reqLoading q (Or.inl hq))
          · exact Or.inr (by simpa using hq)
        · exact Or.inl (hinv.reqLoading q (Or.inr hq))
      · intro q
        rw [List.count_append]
        by_cases hqp : q = p
        · subst hqp
          rw [List.count_eq_zero_of_not_mem h2,
            List.count_eq_zero_of_not_mem hnr, List.count_singleton',
            if_pos rfl]
        · rw [List.count_singleton', if_neg (fun h => hqp h.symm)]
          have := hinv.once q
          omega
      · intro q hq
        rcases hq with hq | hq
        · rcases List.mem_append.mp hq with hq | hq
          · exact hinv.reqNotCached q (Or.inl hq)
          · have : q = p := by simpa using hq
            subst this
            exact fun hc => hnld (hinv.cachedLoaded q hc)
        · exact hinv.reqNotCached q (Or.inr hq)
      · exact hinv.cachedLoaded
      · intro q d hq hget
        by_cases hqp : q = p
        · subst hqp
          rw [mapGet_set_self] at hget
          cases hget
          rfl
        · rw [mapGet_set_ne _ _ _ _ hqp] at hget
          refine hinv.pendNotReady q d ?_ hget
          rcases hq with hq | hq
          · rcases List.mem_append.mp hq with hq | hq
            · exact Or.inl hq
            · exact absurd (by simpa using hq) hqp
          · exact Or.inr hq
      · intro q d hget hr
        by_cases hqp : q = p
        · subst hqp
          rw [mapGet_set_self] at hget
          cases hget
          simp [cacheReady, urlTruthy, loadingEntry] at hr
        · rw [mapGet_set_ne _ _ _ _ hqp] at hget
          exact hinv.pendReadyLoaded q d hget hr
      · intro q d hget hr
        by_cases hqp : q = p
        · subst hqp
          rw [mapGet_set_self] at hget
          cases hget
          simp [cacheReady, urlTruthy, loadingEntry] at hr
        · rw [mapGet_set_ne _ _ _ _ hqp] at hget
          exact hinv.pendReadyNotCached q d hget hr
      · exact hinv.cacheNodup
      · exact mapSet_keys_nodup _ _ _ hinv.pendKeysNodup

end PdfHighlighter

namespace PdfHighlighter

theorem completeRender_eq (p : ℕ) (res : Option String) (emsg : String)
    (s : ThumbState) :
    completeRender p res emsg s =
      processQueue
        { (match res with
           | some url =>
              queueUpdate p ⟨p, some url, false, none⟩
                { s with loaded := setAdd s.loaded p }
           | none => queueUpdate p ⟨p, none, false, some emsg⟩ s) with
          loading := s.loading.filter (fun x => x ≠ p),
          rendering := s.rendering.erase p } := by
  unfold completeRender
  cases res <;> dsimp only [queueUpdate, setDelete] <;>
    split <;> rename_i hq
  · rw [processQueue_of_queue_nil _ (by simpa [List.isEmpty_iff] using hq)]
  · rfl
  · rw [processQueue_of_queue_nil _ (by simpa [List.isEmpty_iff] using hq)]
  · rfl

theorem completeRender_inv (p : ℕ) (res : Option String) (emsg : String)
    (s : ThumbState) (hp : p ∈ s.rendering) (hinv : Inv s) :
    Inv (completeRender p res emsg s) := by
  have hqp : p ∉ s.queue := by
    intro hq
    have h1 : 1 ≤ s.queue.count p := List.one_le_count_iff.mpr hq
    have h2 : 1 ≤ s.rendering.count p := List.one_le_count_iff.mpr hp
    have := hinv.once p
    omega
  have hep : p ∉ s.rendering.erase p := by
    intro hmem
    have hcount := List.count_erase_self p s.rendering
    have h1 : 1 ≤ (s.rendering.erase p).count p := List.one_le_count_iff.mpr hmem
    have h2 : 1 ≤ s.rendering.count p := List.one_le_count_iff.mpr hp
    have := hinv.once p
    omega
  have hmemE : ∀ q, q ∈ s.rendering.erase p → q ∈ s.rendering :=
    fun q hq => List.mem_of_mem_erase hq
  rw [completeRender_eq]
  cases res <;> dsimp only [queueUpdate]
  -- failure path
  · apply processQueue_inv <;> dsimp only
    · exact le_trans (List.length_erase_le p s.rendering) hinv.cap
    · intro q hq
      have hqr : q ∈ s.queue ∨ q ∈ s.rendering := by
        rcases hq with hq | hq
        · exact Or.inl hq
        · exact Or.inr (hmemE q hq)
      have hqnp : q ≠ p := by
        rintro rfl
        rcases hq with hq | hq
        · exact hqp hq
        · exact hep hq
      rw [List.mem_filter]
      exact ⟨hinv.reqLoading q hqr, by simpa using hqnp⟩
    · intro q
      by_cases hq : q = p
      · subst hq
        rw [List.count_eq_zero_of_not_mem hqp,
          List.count_eq_zero_of_not_mem hep]
        omega
      · rw [List.count_erase_of_ne hq]
        exact hinv.once q
    · intro q hq
      refine hinv.reqNotCached q ?_
      rcases hq with hq | hq
      · exact Or.inl hq
      · exact Or.inr (hmemE q hq)
    · exact hinv.cachedLoaded
    · intro q d hq hget
      have hqnp : q ≠ p := by
        rintro rfl
        rcases hq with hq | hq
        · exact hqp hq
        · exact hep hq
      rw [mapGet_set_ne _ _ _ _ hqnp] at hget
      refine hinv.pendNotReady q d ?_ hget
      rcases hq with hq | hq
      · exact Or.inl hq
      · exact Or.inr (hmemE q hq)
    · intro q d hget hr
      by_cases hq : q = p
      · subst hq
        rw [mapGet_set_self] at hget
        cases hget
        simp [cacheReady, urlTruthy] at hr
      · rw [mapGet_set_ne _ _ _ _ hq] at hget
        exact hinv.pendReadyLoaded q d hget hr
    · intro q d hget hr
      by_cases hq : q = p
      · subst hq
        rw [mapGet_set_self] at hget
        cases hget
        simp [cacheReady, urlTruthy] at hr
      · rw [mapGet_set_ne _ _ _ _ hq] at hget
        exact hinv.pendReadyNotCached q d hget hr
    · exact hinv.cacheNodup
    · exact mapSet_keys_nodup _ _ _ hinv.pendKeysNodup
  -- success path
  · apply processQueue_inv <;> dsimp only
    · exact le_trans (List.length_erase_le p s.rendering) hinv.cap
    · intro q hq
      have hqr : q ∈ s.queue ∨ q ∈ s.rendering := by
        rcases hq with hq | hq
        · exact Or.inl hq
        · exact Or.inr (hmemE q hq)
      have hqnp : q ≠ p := by
        rintro rfl
        rcases hq with hq | hq
        · exact hqp hq
        · exact hep hq
      rw [List.mem_filter]
      exact ⟨hinv.reqLoading q hqr, by simpa using hqnp⟩
    · intro q
      by_cases hq : q = p
      · subst hq
        rw [List.count_eq_zero_of_not_mem hqp,
          List.count_eq_zero_of_not_mem hep]
        omega
      · rw [List.count_erase_of_ne hq]
        exact hinv.once q
    · intro q hq
      refine hinv.reqNotCached q ?_
      rcases hq with hq | hq
      · exact Or.inl hq
      · exact Or.inr (hmemE q hq)
    · intro q hq
      rw [mem_setAdd]
      exact Or.inl (hinv.cachedLoaded q hq)
    · intro q d hq hget
      have hqnp : q ≠ p := by
        rintro rfl
        rcases hq with hq | hq
        · exact hqp hq
        · exact hep hq
      rw [mapGet_set_ne _ _ _ _ hqnp] at hget
      refine hinv.pendNotReady q d ?_ hget
      rcases hq with hq | hq
      · exact Or.inl hq
      · exact Or.inr (hmemE q hq)
    · intro q d hget hr
      rw [mem_setAdd]
      by_cases hq : q = p
      · exact Or.inr hq
      · rw [mapGet_set_ne _ _ _ _ hq] at hget
        exact Or.inl (hinv.pendReadyLoaded q d hget hr)
    · intro q d hget hr
      by_cases hq : q = p
      · subst hq
        exact hinv.reqNotCached q (Or.inr hp)
      · rw [mapGet_set_ne _ _ _ _ hq] at hget
        exact hinv.pendReadyNotCached q d hget hr
    · exact hinv.cacheNodup
    · exact mapSet_keys_nodup _ _ _ hinv.pendKeysNodup

end PdfHighlighter

namespace PdfHighlighter

theorem flushUpdates_inv (N : ℕ) (s : ThumbState) (hinv : Inv s) :
    Inv (flushUpdates N s) := by
  unfold flushUpdates
  split <;> rename_i hpend
  · exact hinv
  · have htodo : ∀ kv ∈ s.pending, cacheReady kv.2 = true →
        kv.1 ∈ s.loaded ∧ kv.1 ∉ s.cacheOrder ∧ kv.1 ∉ s.queue ∧
          kv.1 ∉ s.rendering := by
      intro kv hkv hcr
      have hget := mapGet_of_mem_of_nodup s.pending kv hkv hinv.pendKeysNodup
      refine ⟨hinv.pendReadyLoaded kv.1 kv.2 hget hcr,
        hinv.pendReadyNotCached kv.1 kv.2 hget hcr, ?_, ?_⟩
      · intro hq
        have := hinv.pendNotReady kv.1 kv.2 (Or.inl hq) hget
        rw [hcr] at this
        cases this
      · intro hr
        have := hinv.pendNotReady kv.1 kv.2 (Or.inr hr) hget
        rw [hcr] at this
        cases this
    obtain ⟨f1, f2, f3, _, _, g1, g3, g4, _, _⟩ :=
      applyUpdate_fold N s.pending s hinv.reqNotCached hinv.cacheNodup
        hinv.cachedLoaded htodo hinv.pendKeysNodup
    refine ⟨?_, ?_, ?_, ?_, ?_, ?_, ?_, ?_, ?_, ?_, ?_⟩ <;> dsimp only
    · rw [f2]
      exact hinv.cap
    · rw [f1, f2]
      exact hinv.full
    · intro q hq
      rw [f3]
      rw [f1, f2] at hq
      exact hinv.reqLoading q hq
    · intro q
      rw [f1, f2]
      exact hinv.once q
    · intro q hq
      rw [f1, f2] at hq
      exact g1 q hq
    · exact g4
    · intro q d _ hget
      rw [mapGet_nil] at hget
      cases hget
    · intro q d hget
      rw [mapGet_nil] at hget
      cases hget
    · intro q d hget
      rw [mapGet_nil] at hget
      cases hget
    · exact g3
    · simp

theorem reachable_inv (N : ℕ) (s : ThumbState) (h : Reachable N s) :
    Inv s := by
  induction h with
  | init => exact inv_initState
  | load p _ ih => exact loadThumbnail_inv p _ ih
  | complete p res emsg hs hp ih => exact completeRender_inv p res emsg _ hp ih
  | flush _ ih => exact flushUpdates_inv N _ ih

end PdfHighlighter

namespace PdfHighlighter

/-! ### Completion, spelled out -/

/-- The entry queued by `renderThumbnail` on completion: the loaded entry on
success, the error entry on failure. -/
def completionEntry (p : ℕ) (res : Option String) (emsg : String) :
    ThumbnailData :=
  match res with
  | some url => ⟨p, some url, false, none⟩
  | none => ⟨p, none, false, some emsg⟩

theorem completeRender_spec (p : ℕ) (res : Option String) (emsg : String)
    (s : ThumbState) :
    completeRender p res emsg s =
      { s with
        loaded := match res with
          | some _ => setAdd s.loaded p
          | none => s.loaded,
        pending := mapSet s.pending p (completionEntry p res emsg),
        loading := s.loading.filter (fun x => x ≠ p),
        rendering := (s.rendering.erase p) ++
          s.queue.take (freeSlots s.queue (s.rendering.erase p)),
        queue := s.queue.drop (freeSlots s.queue (s.rendering.erase p)),
        startedLog := s.startedLog ++
          s.queue.take (freeSlots s.queue (s.rendering.erase p)) } := by
  rw [completeRender_eq]
  cases res <;> dsimp only [queueUpdate, completionEntry] <;>
    rw [processQueue_spec]

end PdfHighlighter

namespace PdfHighlighter

/-! ### Draining the pipeline: a fair completion schedule

`drainGo` is not part of the source: it models the environment delivering
the completion of every in-flight render (each one succeeding with the data
URL `"thumb"`), which is the fairness assumption behind "every requested
page eventually completes". -/

def drainGo : ℕ → ThumbState → ThumbState
  | 0, s => s
  | n + 1, s =>
    match s.rendering with
    | [] => s
    | p :: _ => drainGo n (completeRender p (some "thumb") "" s)

/-- Run completions until queue and in-flight renders are exhausted. -/
def drain (s : ThumbState) : ThumbState :=
  drainGo (s.queue.length + s.rendering.length) s

theorem completeRender_mu (p : ℕ) (res : Option String) (emsg : String)
    (s : ThumbState) (hp : p ∈ s.rendering) :
    (completeRender p res emsg s).queue.length +
        (completeRender p res emsg s).rendering.length + 1 =
      s.queue.length + s.rendering.length := by
  rw [completeRender_spec]
  dsimp only
  have he : (s.rendering.erase p).length + 1 = s.rendering.length := by
    rw [List.length_erase_of_mem hp]
    have : s.rendering.length ≠ 0 := by
      intro h0
      rw [List.length_eq_zero] at h0
      rw [h0] at hp
      simp at hp
    omega
  simp only [List.length_drop, List.length_append, List.length_take,
    freeSlots]
  omega

theorem drainGo_terminates (N : ℕ) :
    ∀ (n : ℕ) (s : ThumbState), Reachable N s →
    s.queue.length + s.rendering.length ≤ n →
    (drainGo n s).queue = [] ∧ (drainGo n s).rendering = [] ∧
      Reachable N (drainGo n s)
  | 0, s => by
    intro hr hn
    have hq : s.queue = [] := by
      rw [← List.length_eq_zero]
      omega
    have hrd : s.rendering = [] := by
      rw [← List.length_eq_zero]
      omega
    exact ⟨hq, hrd, hr⟩
  | n + 1, s => by
    intro hr hn
    rw [drainGo]
    match hm : s.rendering with
    | [] =>
      have hq : s.queue = [] := by
        by_contra hne
        have := (reachable_inv N s hr).full hne
        rw [hm] at this
        simp [MAX_CONCURRENT_RENDERS] at this
      exact ⟨hq, hm, hr⟩
    | p :: rest =>
      have hp : p ∈ s.rendering := by
        rw [hm]
        exact List.mem_cons_self p rest
      have hr' : Reachable N (completeRender p (some "thumb") "" s) :=
        Reachable.complete p (some "thumb") "" hr hp
      have hmu := completeRender_mu p (some "thumb") "" s hp
      exact drainGo_terminates N n _ hr' (by omega)

theorem drainGo_untouched :
    ∀ (n : ℕ) (s : ThumbState) (q : ℕ), q ∉ s.queue → q ∉ s.rendering →
    mapGet (drainGo n s).pending q = mapGet s.pending q ∧
      q ∉ (drainGo n s).queue ∧ q ∉ (drainGo n s).rendering
  | 0, s, q => fun hq hr => ⟨rfl, hq, hr⟩
  | n + 1, s, q => by
    intro hq hr
    rw [drainGo]
    match hm : s.rendering with
    | [] => exact ⟨rfl, hq, hr⟩
    | p :: rest =>
      have hp : p ∈ s.rendering := by
        rw [hm]
        exact List.mem_cons_self p rest
      have hpq : p ≠ q := fun h => hr (h ▸ hp)
      have hq' : q ∉ (completeRender p (some "thumb") "" s).queue := by
        rw [completeRender_spec]
        dsimp only
        exact fun h => hq (List.mem_of_mem_drop h)
      have hr' : q ∉ (completeRender p (some "thumb") "" s).rendering := by
        rw [completeRender_spec]
        dsimp only
        intro h
        rcases List.mem_append.mp h with h | h
        · exact hr (List.mem_of_mem_erase h)
        · exact hq (List.mem_of_mem_take h)
      have hpend : mapGet (completeRender p (some "thumb") "" s).pending q =
          mapGet s.pending q := by
        rw [completeRender_spec]
        dsimp only
        exact mapGet_set_ne _ _ _ _ (fun h => hpq h.symm)
      obtain ⟨h1, h2, h3⟩ := drainGo_untouched n _ q hq' hr'
      exact ⟨h1.trans hpend, h2, h3⟩

theorem drainGo_done (N : ℕ) :
    ∀ (n : ℕ) (s : ThumbState), Reachable N s →
    s.queue.length + s.rendering.length ≤ n →
    ∀ q, (q ∈ s.queue ∨ q ∈ s.rendering) →
    mapGet (drainGo n s).pending q = some ⟨q, some "thumb", false, none⟩
  | 0, s => by
    intro hr hn q hq
    have hq0 : s.queue = [] := by
      rw [← List.length_eq_zero]; omega
    have hr0 : s.rendering = [] := by
      rw [← List.length_eq_zero]; omega
    rw [hq0, hr0] at hq
    simp at hq
  | n + 1, s => by
    intro hr hn q hq
    rw [drainGo]
    match hm : s.rendering with
    | [] =>
      have hq0 : s.queue = [] := by
        by_contra hne
        have := (reachable_inv N s hr).full hne
        rw [hm] at this
        simp [MAX_CONCURRENT_RENDERS] at this
      rw [hq0, hm] at hq
      simp at hq
    | p :: rest =>
      have hp : p ∈ s.rendering := by
        rw [hm]; exact List.mem_cons_self p rest
      have hinv := reachable_inv N s hr
      set s' := completeRender p (some "thumb") "" s with hs'
      have hr' : Reachable N s' := Reachable.complete p (some "thumb") "" hr hp
      have hmu := completeRender_mu p (some "thumb") "" s hp
      rw [← hs'] at hmu
      by_cases hqp : q = p
      · subst hqp
        have hqnq : q ∉ s.queue := by
          intro hmem
          have h1 : 1 ≤ s.queue.count q := List.one_le_count_iff.mpr hmem
          have h2 : 1 ≤ s.rendering.count q := List.one_le_count_iff.mpr hp
          have := hinv.once q
          omega
        have hqe : q ∉ s.rendering.erase q := by
          intro hmem
          have hc := List.count_erase_self q s.rendering
          have h1 : 1 ≤ (s.rendering.erase q).count q :=
            List.one_le_count_iff.mpr hmem
          have h2 : 1 ≤ s.rendering.count q := List.one_le_count_iff.mpr hp
          have := hinv.once q
          omega
        have hq' : q ∉ s'.queue := by
          rw [hs', completeRender_spec]
          dsimp only
          exact fun h => hqnq (List.mem_of_mem_drop h)
        have hr'' : q ∉ s'.rendering := by
          rw [hs', completeRender_spec]
          dsimp only
          intro h
          rcases List.mem_append.mp h with h | h
          · exact hqe h
          · exact hqnq (List.mem_of_mem_take h)
        have hpend : mapGet s'.pending q =
            some ⟨q, some "thumb", false, none⟩ := by
          rw [hs', completeRender_spec]
          dsimp only
          rw [mapGet_set_self]
          rfl
        obtain ⟨h1, _, _⟩ := drainGo_untouched n s' q hq' hr''
        rw [h1, hpend]
      · have hq' : q ∈ s'.queue ∨ q ∈ s'.rendering := by
          rw [hs', completeRender_spec]
          dsimp only
          rcases hq with hq | hq
          · rw [← List.take_append_drop
              (freeSlots s.queue (s.rendering.erase p)) s.queue] at hq
            rcases List.mem_append.mp hq with h | h
            · exact Or.inr (List.mem_append.mpr (Or.inr h))
            · exact Or.inl h
          · exact Or.inr (List.mem_append.mpr
              (Or.inl (List.mem_erase_of_ne hqp |>.mpr hq)))
        exact drainGo_done N n s' hr' (by omega) q hq'

end PdfHighlighter

namespace PdfHighlighter

/-! ### Claim theorems for the thumbnail pipeline -/

/-- C2: repeated `loadThumbnail` calls for one page before its render
completes collapse to a single request.  Any repeated call is a no-op on the
whole state (so it enqueues nothing), and from an idle fresh state the pair
of calls invokes the render pipeline exactly once for that page. -/
theorem loadThumbnail_collapses (p : ℕ) (s : ThumbState)
    (hl : p ∉ s.loading) (hd : p ∉ s.loaded) (hq : s.queue = [])
    (hcap : s.rendering.length < MAX_CONCURRENT_RENDERS) :
    (∀ t : ThumbState,
      loadThumbnail p (loadThumbnail p t) = loadThumbnail p t) ∧
    (loadThumbnail p (loadThumbnail p s)).startedLog =
      s.startedLog ++ [p] := by
  have hload : ∀ u : ThumbState, p ∈ u.loading → loadThumbnail p u = u := by
    intro u hu
    unfold loadThumbnail
    rw [if_pos (Or.inl hu)]
  have hidem : ∀ t : ThumbState,
      loadThumbnail p (loadThumbnail p t) = loadThumbnail p t := by
    intro t
    by_cases h1 : p ∈ t.loading ∨ p ∈ t.loaded
    · have ht : loadThumbnail p t = t := by
        unfold loadThumbnail
        rw [if_pos h1]
      rw [ht, ht]
    · by_cases h2 : p ∈ t.queue
      · have ht : loadThumbnail p t = t := by
          unfold loadThumbnail
          rw [if_neg h1, if_pos h2]
        rw [ht, ht]
      · have hmem : p ∈ (loadThumbnail p t).loading := by
          unfold loadThumbnail
          rw [if_neg h1, if_neg h2]
          dsimp only [queueUpdate]
          rw [processQueue_spec]
          dsimp only
          rw [mem_setAdd]
          exact Or.inr rfl
        exact hload _ hmem
  refine ⟨hidem, ?_⟩
  rw [hidem s]
  unfold loadThumbnail
  rw [if_neg (by push_neg; exact ⟨hl, hd⟩), if_neg (by rw [hq]; simp)]
  dsimp only [queueUpdate]
  rw [processQueue_spec]
  dsimp only
  rw [hq]
  have hfs : freeSlots ([] ++ [p]) s.rendering = 1 := by
    simp only [freeSlots, MAX_CONCURRENT_RENDERS, List.nil_append,
      List.length_singleton] at hcap ⊢
    omega
  rw [hfs]
  simp

/-- Witness for C2: two requests for page 7 from the empty state start
exactly one render. -/
theorem loadThumbnail_collapses_witness :
    loadThumbnail 7 (loadThumbnail 7 initState) = loadThumbnail 7 initState ∧
    (loadThumbnail 7 (loadThumbnail 7 initState)).startedLog =
      initState.startedLog ++ [7] := by
  have h := loadThumbnail_collapses 7 initState (by decide) (by decide)
    (by decide) (by decide)
  exact ⟨h.1 initState, h.2⟩

/-- C3: in every reachable state at most `MAX_CONCURRENT_RENDERS = 3` pages
are rendering, and under the fair schedule that completes every in-flight
render (`drain`), the queue and the in-flight set empty out and every
requested page ends with a completed (`isLoading = false`) entry. -/
theorem render_concurrency_bounded_and_live (N : ℕ) (s : ThumbState)
    (h : Reachable N s) :
    s.rendering.length ≤ MAX_CONCURRENT_RENDERS ∧
    (drain s).queue = [] ∧ (drain s).rendering = [] ∧
    ∀ p, p ∈ s.queue ∨ p ∈ s.rendering →
      mapGet (drain s).pending p = some ⟨p, some "thumb", false, none⟩ := by
  refine ⟨(reachable_inv N s h).cap, ?_, ?_, ?_⟩
  · exact (drainGo_terminates N _ s h le_rfl).1
  · exact (drainGo_terminates N _ s h le_rfl).2.1
  · intro p hp
    exact drainGo_done N _ s h le_rfl p hp

/-- Witness for C3 at a concrete reachable state: one page requested. -/
theorem render_concurrency_bounded_and_live_witness :
    (loadThumbnail 1 initState).rendering.length ≤ MAX_CONCURRENT_RENDERS ∧
    mapGet (drain (loadThumbnail 1 initState)).pending 1 =
      some ⟨1, some "thumb", false, none⟩ := by
  have h := render_concurrency_bounded_and_live 150 (loadThumbnail 1 initState)
    (Reachable.load 1 Reachable.init)
  exact ⟨h.1, h.2.2.2 1 (Or.inr (by decide))⟩

/-- C7: the scheduler is FIFO.  One pass of `processQueue` starts exactly
the first `freeSlots` pages of the queue, in queue order (they are appended
in order to the started-render log and to the in-flight list), and leaves
the remainder of the queue untouched in order. -/
theorem scheduler_fifo (s : ThumbState) :
    (processQueue s).startedLog =
      s.startedLog ++ s.queue.take (freeSlots s.queue s.rendering) ∧
    (processQueue s).queue =
      s.queue.drop (freeSlots s.queue s.rendering) ∧
    (processQueue s).rendering =
      s.rendering ++ s.queue.take (freeSlots s.queue s.rendering) := by
  rw [processQueue_spec]
  exact ⟨rfl, rfl, rfl⟩

/-- C8: a batched flush never evicts a page that is mid-render: every page
appended to the eviction log by `flushUpdates` is outside the in-flight
set. -/
theorem evict_never_rendering (N : ℕ) (s : ThumbState) (h : Reachable N s)
    (p : ℕ) (hp : p ∈ s.rendering) :
    p ∉ (flushUpdates N s).evictLog.drop s.evictLog.length := by
  have hinv := reachable_inv N s h
  unfold flushUpdates
  split <;> rename_i hpend
  · rw [List.drop_length]
    simp
  · have htodo : ∀ kv ∈ s.pending, cacheReady kv.2 = true →
        kv.1 ∈ s.loaded ∧ kv.1 ∉ s.cacheOrder ∧ kv.1 ∉ s.queue ∧
          kv.1 ∉ s.rendering := by
      intro kv hkv hcr
      have hget := mapGet_of_mem_of_nodup s.pending kv hkv hinv.pendKeysNodup
      refine ⟨hinv.pendReadyLoaded kv.1 kv.2 hget hcr,
        hinv.pendReadyNotCached kv.1 kv.2 hget hcr, ?_, ?_⟩
      · intro hqm
        have := hinv.pendNotReady kv.1 kv.2 (Or.inl hqm) hget
        rw [hcr] at this
        cases this
      · intro hrm
        have := hinv.pendNotReady kv.1 kv.2 (Or.inr hrm) hget
        rw [hcr] at this
        cases this
    obtain ⟨_, _, _, _, _, _, _, _, ⟨E, hE, hEr⟩, _⟩ :=
      applyUpdate_fold N s.pending s hinv.reqNotCached hinv.cacheNodup
        hinv.cachedLoaded htodo hinv.pendKeysNodup
    dsimp only
    rw [hE, List.drop_left]
    exact fun hx => hEr p hx hp

/-- Witness for C8: with page 1 mid-render, flushing evicts nothing
involving it. -/
theorem evict_never_rendering_witness :
    1 ∉ (flushUpdates 150 (loadThumbnail 1 initState)).evictLog.drop
        (loadThumbnail 1 initState).evictLog.length :=
  evict_never_rendering 150 (loadThumbnail 1 initState)
    (Reachable.load 1 Reachable.init) 1 (by decide)

/-- C9: `getThumbnail` is a pure synchronous read: it returns the stored
entry when present and the default "not yet requested" entry otherwise, and
it leaves the entire hook state unchanged — in particular it never enqueues
a load. -/
theorem getThumbnail_pure (p : ℕ) (s : ThumbState) :
    getThumbnailOp p s =
      ((mapGet s.thumbnails p).getD ⟨p, none, false, none⟩, s) := by
  unfold getThumbnailOp getThumbnail
  cases h : mapGet s.thumbnails p <;> simp [h]

end PdfHighlighter


namespace PdfHighlighter

/-! ### Injectivity of the decimal representation used by outline ids -/

theorem digitChar_inj_lt :
    ∀ a < 10, ∀ b < 10, Nat.digitChar a = Nat.digitChar b → a = b := by
  decide

theorem toDigitsCore_eq_digits :
    ∀ (fuel n : ℕ) (ds : List Char), 0 < n → n < fuel →
    Nat.toDigitsCore 10 fuel n ds =
      ((Nat.digits 10 n).reverse.map Nat.digitChar) ++ ds
  | 0, n, ds => by
    intro h0 hf
    omega
  | fuel + 1, n, ds => by
    intro h0 hf
    have hdig : Nat.digits 10 n = n % 10 :: Nat.digits 10 (n / 10) :=
      Nat.digits_def' (by norm_num) h0
    simp only [Nat.toDigitsCore]
    by_cases hdiv : n / 10 = 0
    · rw [if_pos hdiv, hdig, hdiv]
      simp
    · rw [if_neg hdiv,
        toDigitsCore_eq_digits fuel (n / 10) _ (Nat.pos_of_ne_zero hdiv)
          (by
            have h1 : n / 10 < n := Nat.div_lt_self h0 (by norm_num)
            omega),
        hdig]
      simp

theorem toDigits_eq_digits (n : ℕ) (h : 0 < n) :
    Nat.toDigits 10 n = (Nat.digits 10 n).reverse.map Nat.digitChar := by
  unfold Nat.toDigits
  rw [toDigitsCore_eq_digits (n + 1) n [] h (Nat.lt_succ_self n),
    List.append_nil]

theorem toDigits_zero_ne (n : ℕ) (hn : 0 < n) :
    Nat.toDigits 10 n ≠ Nat.toDigits 10 0 := by
  intro h
  rw [toDigits_eq_digits n hn, show Nat.toDigits 10 0 = ['0'] from rfl] at h
  match hr : (Nat.digits 10 n).reverse with
  | [] => rw [hr] at h; simp at h
  | d :: rest =>
    rw [hr] at h
    simp only [List.map_cons, List.cons.injEq] at h
    have hrest : rest = [] := by
      have := h.2
      rwa [List.map_eq_nil_iff] at this
    have hd : d ∈ Nat.digits 10 n := by
      have : d ∈ (Nat.digits 10 n).reverse := by
        rw [hr]
        exact List.mem_cons_self d rest
      exact List.mem_reverse.mp this
    have hdlt : d < 10 := Nat.digits_lt_base (by norm_num) hd
    have hd0 : d = 0 :=
      digitChar_inj_lt d hdlt 0 (by norm_num) (by simpa using h.1)
    have hdig : Nat.digits 10 n = [d] := by
      have := congrArg List.reverse hr
      rwa [List.reverse_reverse, hrest, List.reverse_singleton] at this
    have : n = 0 := by
      have hof := Nat.ofDigits_digits 10 n
      rw [hdig, hd0] at hof
      simpa using hof.symm
    omega

theorem map_digitChar_inj :
    ∀ (l1 l2 : List ℕ), (∀ x ∈ l1, x < 10) → (∀ x ∈ l2, x < 10) →
    l1.map Nat.digitChar = l2.map Nat.digitChar → l1 = l2
  | [], [] => by
    intro _ _ _
    rfl
  | [], b :: l2 => by
    intro _ _ h
    simp at h
  | a :: l1, [] => by
    intro _ _ h
    simp at h
  | a :: l1, b :: l2 => by
    intro h1 h2 h
    simp only [List.map_cons, List.cons.injEq] at h
    have ha := h1 a (List.mem_cons_self a l1)
    have hb := h2 b (List.mem_cons_self b l2)
    have hab := digitChar_inj_lt a ha b hb h.1
    have htl := map_digitChar_inj l1 l2
      (fun x hx => h1 x (List.mem_cons_of_mem a hx))
      (fun x hx => h2 x (List.mem_cons_of_mem b hx)) h.2
    rw [hab, htl]

theorem natRepr_injective : Function.Injective Nat.repr := by
  intro m n h
  have hl : Nat.toDigits 10 m = Nat.toDigits 10 n := by
    have hd := congrArg String.data h
    simpa [Nat.repr, List.asString] using hd
  rcases Nat.eq_zero_or_pos m with rfl | hm
  · rcases Nat.eq_zero_or_pos n with rfl | hn
    · rfl
    · exact absurd hl.symm (toDigits_zero_ne n hn)
  · rcases Nat.eq_zero_or_pos n with rfl | hn
    · exact absurd hl (toDigits_zero_ne m hm)
    · rw [toDigits_eq_digits m hm, toDigits_eq_digits n hn] at hl
      have hrev : (Nat.digits 10 m).reverse = (Nat.digits 10 n).reverse :=
        map_digitChar_inj _ _
          (fun x hx =>
            Nat.digits_lt_base (by norm_num) (List.mem_reverse.mp hx))
          (fun x hx =>
            Nat.digits_lt_base (by norm_num) (List.mem_reverse.mp hx)) hl
      have hdig : Nat.digits 10 m = Nat.digits 10 n :=
        List.reverse_injective hrev
      have h1 := Nat.ofDigits_digits 10 m
      have h2 := Nat.ofDigits_digits 10 n
      rw [hdig] at h1
      rw [← h1, h2]

theorem toString_nat_eq_repr (n : ℕ) : toString n = Nat.repr n := rfl

theorem outlineId_inj (level a b : ℕ) (h : outlineId level a = outlineId level b) :
    a = b := by
  unfold outlineId at h
  have hd := congrArg String.data h
  simp only [String.data_append] at hd
  have hrepr : (toString a).data = (toString b).data :=
    List.append_cancel_left hd
  have : Nat.repr a = Nat.repr b := by
    rw [toString_nat_eq_repr, toString_nat_eq_repr] at hrepr
    exact String.ext hrepr
  exact natRepr_injective this

end PdfHighlighter

namespace PdfHighlighter

/-! ### Characterizing outline processing -/

/-- The body of the `processOutlineItems` loop for a single raw item at
sibling index `i`. -/
def processOneItem (resolve : δ → Option ℕ) (level i : ℕ)
    (it : OutlineItem δ) : ProcessedOutlineItem δ :=
  match it with
  | .mk title dest bold italic items =>
    .mk (outlineId level i) title (destPage resolve dest) dest level bold
      italic
      (if items.length ≠ 0 then processOutlineItemsAux resolve (level + 1) 0 items
       else [])

theorem processOutlineItemsAux_length (resolve : δ → Option ℕ)
    (level : ℕ) :
    ∀ (i : ℕ) (items : List (OutlineItem δ)),
    (processOutlineItemsAux resolve level i items).length = items.length
  | _, [] => by simp [processOutlineItemsAux]
  | i, .mk title dest bold italic children :: rest => by
    simp only [processOutlineItemsAux, List.length_cons]
    rw [processOutlineItemsAux_length resolve level (i + 1) rest]

theorem processOutlineItemsAux_get? (resolve : δ → Option ℕ) (level : ℕ) :
    ∀ (items : List (OutlineItem δ)) (i j : ℕ),
    (processOutlineItemsAux resolve level i items)[j]? =
      items[j]?.map (processOneItem resolve level (i + j))
  | [], i, j => by
    rw [processOutlineItemsAux.eq_def]
    simp
  | .mk title dest bold italic children :: rest, i, 0 => by
    rw [processOutlineItemsAux.eq_def]
    simp [processOneItem]
  | .mk title dest bold italic children :: rest, i, j + 1 => by
    have ih := processOutlineItemsAux_get? resolve level rest (i + 1) j
    rw [processOutlineItemsAux.eq_def]
    simp only [List.getElem?_cons_succ]
    rw [ih, show i + 1 + j = i + (j + 1) from by omega]

end PdfHighlighter

namespace PdfHighlighter

theorem processOneItem_id (resolve : δ → Option ℕ) (level i : ℕ)
    (it : OutlineItem δ) :
    (processOneItem resolve level i it).id = outlineId level i := by
  cases it
  rfl

theorem processOneItem_title (resolve : δ → Option ℕ) (level i : ℕ)
    (it : OutlineItem δ) :
    (processOneItem resolve level i it).title = it.title := by
  cases it
  rfl

theorem processOneItem_pageNumber (resolve : δ → Option ℕ) (level i : ℕ)
    (it : OutlineItem δ) :
    (processOneItem resolve level i it).pageNumber =
      destPage resolve it.dest := by
  cases it
  rfl

/-- C5: failure isolation in outline processing.  Outline processing is
per-item (each output position is a function of the raw item at that
position alone, so one item's failing destination lookup cannot affect its
siblings or ancestors), and an item whose destination lookup fails (the
oracle returns `none`) gets `pageNumber = 1`. -/
theorem outline_failure_isolated (resolve : δ → Option ℕ) (level i : ℕ)
    (items : List (OutlineItem δ)) :
    (processOutlineItemsAux resolve level i items).length = items.length ∧
    (∀ j, (processOutlineItemsAux resolve level i items)[j]? =
      items[j]?.map (processOneItem resolve level (i + j))) ∧
    (∀ (it : OutlineItem δ) (d : δ), it.dest = some d → resolve d = none →
      (processOneItem resolve level i it).pageNumber = 1) := by
  refine ⟨processOutlineItemsAux_length resolve level i items,
    fun j => processOutlineItemsAux_get? resolve level items i j, ?_⟩
  intro it d hd hres
  rw [processOneItem_pageNumber, hd]
  simp [destPage, hres]

/-- Witness for C5: a two-item outline whose first item has a failing
destination; both items are processed (length 2), the failing one gets
page 1, and the healthy sibling keeps its own title. -/
theorem outline_failure_isolated_witness :
    (processOutlineItemsAux (fun _ : Unit => none) 0 0
        [OutlineItem.mk "Bad" (some ()) false false [],
         OutlineItem.mk "Good" none false false []]).length = 2 ∧
    (processOneItem (fun _ : Unit => none) 0 0
        (OutlineItem.mk "Bad" (some ()) false false [])).pageNumber = 1 ∧
    (processOutlineItemsAux (fun _ : Unit => none) 0 0
        [OutlineItem.mk "Bad" (some ()) false false [],
         OutlineItem.mk "Good" none false false []])[1]? =
      some (processOneItem (fun _ : Unit => none) 0 1
        (OutlineItem.mk "Good" none false false [])) := by
  have h := outline_failure_isolated (fun _ : Unit => none) 0 0
    [OutlineItem.mk "Bad" (some ()) false false [],
     OutlineItem.mk "Good" none false false []]
  refine ⟨h.1, h.2.2 _ () rfl rfl, ?_⟩
  rw [h.2.1 1]
  rfl

end PdfHighlighter

namespace PdfHighlighter

/-! ### Flattening -/

theorem flattenOutline_length :
    ∀ (l : List (ProcessedOutlineItem δ)),
    (flattenOutline l).length = countNodes l
  | [] => by
    rw [flattenOutline.eq_def, countNodes.eq_def]
    rfl
  | item :: rest => by
    rw [flattenOutline.eq_def, countNodes.eq_def]
    dsimp only
    simp only [List.length_append, List.length_cons]
    rw [flattenOutline_length rest]
    by_cases hc : item.children.length ≠ 0
    · rw [if_pos hc, flattenOutline_length item.children]
      omega
    · push_neg at hc
      rw [List.length_eq_zero] at hc
      rw [if_neg (by rw [hc]; simp), hc]
      rw [show countNodes ([] : List (ProcessedOutlineItem δ)) = 0 from by
        rw [countNodes.eq_def]]
      simp
termination_by l => sizeOf l
decreasing_by
  all_goals cases item
  all_goals simp [ProcessedOutlineItem.children]
  all_goals omega

theorem flattenOutline_eq_preorder :
    ∀ (l : List (ProcessedOutlineItem δ)),
    flattenOutline l = preorderFlatten l
  | [] => by
    rw [flattenOutline.eq_def, preorderFlatten.eq_def]
  | item :: rest => by
    rw [flattenOutline.eq_def, preorderFlatten.eq_def]
    dsimp only
    rw [flattenOutline_eq_preorder rest]
    by_cases hc : item.children.length ≠ 0
    · rw [if_pos hc, flattenOutline_eq_preorder item.children]
      simp
    · push_neg at hc
      rw [List.length_eq_zero] at hc
      rw [if_neg (by rw [hc]; simp), hc]
      rw [show preorderFlatten ([] : List (ProcessedOutlineItem δ)) = [] from by
        rw [preorderFlatten.eq_def]]
      simp
termination_by l => sizeOf l
decreasing_by
  all_goals cases item
  all_goals simp [ProcessedOutlineItem.children]
  all_goals omega

/-- C6: `flattenOutline` is the pre-order traversal of the processed
outline forest: its length is the total node count, and it equals the
traversal that emits each node immediately followed by its fully flattened
children and then its later siblings. -/
theorem flatten_is_preorder (items : List (ProcessedOutlineItem δ)) :
    (flattenOutline items).length = countNodes items ∧
    flattenOutline items = preorderFlatten items :=
  ⟨flattenOutline_length items, flattenOutline_eq_preorder items⟩

end PdfHighlighter

namespace PdfHighlighter

/-! ### Outline ids -/

/-- Counterexample to C10 as stated: in the two-root outline where each
root has one child, the two children live at different parents but both get
the id `outline-1-0`, so the ids of the whole processed tree are not
pairwise distinct. -/
theorem outline_ids_clash :
    ¬ ((flattenOutline (processOutlineItems (fun _ : Unit => some 0)
        [OutlineItem.mk "A" none false false
           [OutlineItem.mk "A1" none false false []],
         OutlineItem.mk "B" none false false
           [OutlineItem.mk "B1" none false false []]] 0)).map
        (fun t => t.id)).Nodup := by
  simp [processOutlineItems, processOutlineItemsAux, flattenOutline,
    ProcessedOutlineItem.children, ProcessedOutlineItem.id, outlineId]

/-- C10 amended: ids are pairwise distinct among the nodes produced from
one sibling list (one invocation of the processing loop); nodes under
different parents may still share an id. -/
theorem outline_sibling_ids_distinct (resolve : δ → Option ℕ)
    (level i : ℕ) (items : List (OutlineItem δ)) (j k : ℕ) (hjk : j ≠ k)
    (pj pk : ProcessedOutlineItem δ)
    (hj : (processOutlineItemsAux resolve level i items)[j]? = some pj)
    (hk : (processOutlineItemsAux resolve level i items)[k]? = some pk) :
    pj.id ≠ pk.id := by
  rw [processOutlineItemsAux_get? resolve level items i j] at hj
  rw [processOutlineItemsAux_get? resolve level items i k] at hk
  obtain ⟨itj, hitj, rfl⟩ := Option.map_eq_some'.mp hj
  obtain ⟨itk, hitk, rfl⟩ := Option.map_eq_some'.mp hk
  rw [processOneItem_id, processOneItem_id]
  intro h
  have := outlineId_inj level (i + j) (i + k) h
  omega

/-- Witness for the amended C10: the two roots of a concrete sibling list
receive distinct ids. -/
theorem outline_sibling_ids_distinct_witness :
    (processOneItem (fun _ : Unit => some 0) 0 0
        (OutlineItem.mk "A" none false false [])).id ≠
      (processOneItem (fun _ : Unit => some 0) 0 1
        (OutlineItem.mk "B" none false false [])).id := by
  refine outline_sibling_ids_distinct (fun _ : Unit => some 0) 0 0
    [OutlineItem.mk "A" none false false [],
     OutlineItem.mk "B" none false false []] 0 1 (by decide) _ _ ?_ ?_
  · rw [processOutlineItemsAux_get?]
    rfl
  · rw [processOutlineItemsAux_get?]
    rfl

end PdfHighlighter

namespace PdfHighlighter

/-! ### Sequential request/complete/flush rounds and the LRU window (C4) -/

/-- The completed entry produced by a successful render with data URL
`"thumb"`. -/
def doneEntry (q : ℕ) : ThumbnailData := ⟨q, some "thumb", false, none⟩

/-- One round of the sequential scenario of C4: request a page, let its
render complete, and flush the batched update before the next request. -/
def requestAndComplete (N : ℕ) (s : ThumbState) (p : ℕ) : ThumbState :=
  flushUpdates N (completeRender p (some "thumb") "" (loadThumbnail p s))

/-- The C4 scenario: the rounds for a list of pages, in order. -/
def runSeq (N : ℕ) (ps : List ℕ) (s : ThumbState) : ThumbState :=
  ps.foldl (requestAndComplete N) s

/-- The effect of one round on the LRU access order: append the new page
and evict from the front down to the cache size. -/
def lruStep (N : ℕ) (L : List ℕ) (p : ℕ) : List ℕ :=
  (L ++ [p]).drop ((L.length + 1) - N)

/-- A quiescent pipeline state: nothing queued, loading, rendering or
pending, and cache contents described exactly by the access-order list
`L`. -/
structure Quiet (L : List ℕ) (s : ThumbState) : Prop where
  thumbs : s.thumbnails = L.map (fun q => (q, doneEntry q))
  loadingE : s.loading = []
  loadedMem : ∀ x, x ∈ s.loaded ↔ x ∈ L
  cache : s.cacheOrder = L
  queueE : s.queue = []
  renderingE : s.rendering = []
  pendingE : s.pending = []

theorem mapSet_map_fresh (L : List ℕ) (f : ℕ → ThumbnailData) (p : ℕ)
    (v : ThumbnailData) (hp : p ∉ L) :
    mapSet (L.map (fun q => (q, f q))) p v =
      L.map (fun q => (q, f q)) ++ [(p, v)] := by
  unfold mapSet
  have hc : ((L.map (fun q => (q, f q))).any (fun kv => kv.1 = p)) = false := by
    rw [List.any_eq_false]
    intro kv hkv
    obtain ⟨q, hq, rfl⟩ := List.mem_map.mp hkv
    simp only [decide_eq_true_eq]
    exact fun h => hp (h ▸ hq)
  rw [hc]
  simp

theorem filter_ne_of_not_mem (L : List ℕ) (p : ℕ) (hp : p ∉ L) :
    L.filter (fun x => x ≠ p) = L := by
  apply List.filter_eq_self.mpr
  intro x hx
  simp only [ne_eq, decide_not, Bool.not_eq_true', decide_eq_false_iff_not]
  exact fun h => hp (h ▸ hx)

theorem nodup_mem_drop (L : List ℕ) (m : ℕ) (hnd : L.Nodup) (x : ℕ) :
    x ∈ L.drop m ↔ x ∈ L ∧ x ∉ L.take m := by
  constructor
  · intro hx
    refine ⟨List.mem_of_mem_drop hx, ?_⟩
    intro ht
    exact (List.disjoint_take_drop hnd le_rfl) ht hx
  · rintro ⟨hx, ht⟩
    rw [← List.take_append_drop m L] at hx
    rcases List.mem_append.mp hx with h | h
    · exact absurd h ht
    · exact h

end PdfHighlighter

namespace PdfHighlighter

theorem cacheReady_doneEntry (q : ℕ) : cacheReady (doneEntry q) = true := rfl

theorem quiet_step (N : ℕ) (L : List ℕ) (s : ThumbState) (p : ℕ)
    (hq : Quiet L s) (hnd : L.Nodup) (hp : p ∉ L) :
    Quiet (lruStep N L p) (requestAndComplete N s p) := by
  obtain ⟨ht, hl, hld, hc, hqu, hr, hpd⟩ := hq
  have hA : loadThumbnail p s =
      { s with loading := [p],
               pending := [(p, loadingEntry p)],
               queue := [],
               rendering := [p],
               startedLog := s.startedLog ++ [p] } := by
    unfold loadThumbnail
    rw [if_neg (by
        push_neg
        exact ⟨by rw [hl]; simp, fun hm => hp ((hld p).mp hm)⟩),
      if_neg (by rw [hqu]; simp)]
    dsimp only [queueUpdate]
    rw [processQueue_spec]
    dsimp only
    rw [hl, hqu, hpd, hr]
    simp [setAdd, mapSet, freeSlots, MAX_CONCURRENT_RENDERS]
  have hB : completeRender p (some "thumb") "" (loadThumbnail p s) =
      { s with loading := [],
               loaded := setAdd s.loaded p,
               pending := [(p, doneEntry p)],
               queue := [],
               rendering := [],
               startedLog := s.startedLog ++ [p] } := by
    rw [hA, completeRender_spec]
    dsimp only
    simp [freeSlots, mapSet, doneEntry, completionEntry]
  unfold requestAndComplete
  rw [hB]
  unfold flushUpdates
  rw [if_neg (by simp)]
  dsimp only [List.foldl_cons, List.foldl_nil]
  unfold applyUpdate
  dsimp only
  rw [if_pos (cacheReady_doneEntry p), evictLoop_spec]
  dsimp only
  rw [ht, hc, mapSet_map_fresh L doneEntry p (doneEntry p) hp,
    filter_ne_of_not_mem L p hp]
  have hL0 : L.map (fun q => (q, doneEntry q)) ++ [(p, doneEntry p)] =
      (L ++ [p]).map (fun q => (q, doneEntry q)) := by
    simp
  have hnd0 : (L ++ [p]).Nodup := by
    apply List.Nodup.append hnd (by simp)
    intro x hx hx'
    simp only [List.mem_singleton] at hx'
    exact hp (hx' ▸ hx)
  constructor <;> dsimp only
  · rw [hL0, foldl_mapDelete_map_prefix doneEntry (L ++ [p]) _ hnd0]
    rw [lruStep]
    simp
  · intro x
    rw [mem_foldl_setDelete, mem_setAdd, lruStep]
    rw [nodup_mem_drop _ _ hnd0 x]
    simp only [List.length_append, List.length_singleton, List.mem_append,
      List.mem_singleton]
    constructor
    · rintro ⟨hmem, hnt⟩
      refine ⟨?_, ?_⟩
      · rcases hmem with h | h
        · exact Or.inl ((hld x).mp h)
        · exact Or.inr h
      · simpa using hnt
    · rintro ⟨hmem, hnt⟩
      refine ⟨?_, ?_⟩
      · rcases hmem with h | h
        · exact Or.inl ((hld x).mpr h)
        · exact Or.inr h
      · simpa using hnt
  · rw [lruStep]
    simp

end PdfHighlighter

namespace PdfHighlighter

theorem runSeq_quiet (N : ℕ) :
    ∀ (ps L : List ℕ) (s : ThumbState), Quiet L s → (L ++ ps).Nodup →
    Quiet (ps.foldl (lruStep N) L) (runSeq N ps s)
  | [], L, s => fun hq _ => hq
  | p :: rest, L, s => by
    intro hq hnd
    have hLnd : L.Nodup := ((List.nodup_append).mp hnd).1
    have hpL : p ∉ L := by
      intro hm
      exact ((List.nodup_append).mp hnd).2.2 hm (List.mem_cons_self p rest)
    have hstep := quiet_step N L s p hq hLnd hpL
    have hnd' : (lruStep N L p ++ rest).Nodup := by
      have hperm : (L ++ [p]) ++ rest = L ++ p :: rest := by
        simp
      have hnd0 : ((L ++ [p]) ++ rest).Nodup := by
        rw [hperm]
        exact hnd
      have hsub : (lruStep N L p ++ rest).Sublist ((L ++ [p]) ++ rest) :=
        List.Sublist.append_right (List.drop_sublist _ _) rest
      exact hnd0.sublist hsub
    have ih := runSeq_quiet N rest (lruStep N L p)
      (requestAndComplete N s p) hstep hnd'
    exact ih

theorem foldl_lruStep_drop (N : ℕ) :
    ∀ (ps M : List ℕ),
    ps.foldl (lruStep N) (M.drop (M.length - N)) =
      (M ++ ps).drop ((M ++ ps).length - N)
  | [], M => by simp
  | p :: rest, M => by
    have hstep : lruStep N (M.drop (M.length - N)) p =
        (M ++ [p]).drop ((M ++ [p]).length - N) := by
      unfold lruStep
      rw [List.drop_append_eq_append_drop, List.drop_append_eq_append_drop,
        List.drop_drop, List.length_drop, List.length_append,
        List.length_singleton]
      rw [show M.length - N + (M.length - (M.length - N) + 1 - N) =
          M.length + 1 - N from by omega,
        show M.length - (M.length - N) + 1 - N - (M.length - (M.length - N)) =
          M.length + 1 - N - M.length from by omega]
    rw [List.foldl_cons, hstep,
      foldl_lruStep_drop N rest (M ++ [p])]
    congr 1 <;> simp

end PdfHighlighter

namespace PdfHighlighter

/-- C4: with cache capacity `N`, sequentially requesting `N + 5` distinct
pages — each render completing and its update flushing before the next
request — leaves exactly the last `N` pages resident: the thumbnail map
holds exactly those pages (in completion order) and the LRU order is that
same most-recently-touched suffix. -/
theorem lru_cache_keeps_recent (N : ℕ) (ps : List ℕ) (hnd : ps.Nodup)
    (hlen : ps.length = N + 5) :
    (runSeq N ps initState).thumbnails =
      (ps.drop 5).map (fun q => (q, doneEntry q)) ∧
    (runSeq N ps initState).cacheOrder = ps.drop 5 := by
  have hq0 : Quiet [] initState := by
    constructor <;> simp [initState]
  have h := runSeq_quiet N ps [] initState hq0 (by simpa using hnd)
  have hfold : ps.foldl (lruStep N) [] = ps.drop 5 := by
    have hf := foldl_lruStep_drop N ps []
    simp only [List.length_nil, Nat.zero_sub, List.drop_nil,
      List.nil_append] at hf
    rw [hf, hlen, show N + 5 - N = 5 from by omega]
  rw [hfold] at h
  exact ⟨h.thumbs, h.cache⟩

/-- Witness for C4: capacity 2, seven pages; pages 6 and 7 remain. -/
theorem lru_cache_keeps_recent_witness :
    (runSeq 2 [1, 2, 3, 4, 5, 6, 7] initState).thumbnails =
      ([1, 2, 3, 4, 5, 6, 7].drop 5).map (fun q => (q, doneEntry q)) ∧
    (runSeq 2 [1, 2, 3, 4, 5, 6, 7] initState).cacheOrder =
      [1, 2, 3, 4, 5, 6, 7].drop 5 :=
  lru_cache_keeps_recent 2 [1, 2, 3, 4, 5, 6, 7] (by decide) (by decide)

end PdfHighlighter
